import Mathlib

/-!
Verification of the gocache repository (a caching HTTP/HTTPS forward proxy)
against its natural-language specification.

The development shallowly embeds the Go sources:

* `internal/cache/cache.go` — the response store (`MemoryCache`).  The Go
  struct keeps a hash map `items : map[string]*list.Element` together with a
  doubly linked list `lruList` whose elements carry `cacheNode` values; every
  map entry points at a node currently linked in the list.  The embedding
  represents the pair by the single list `lru` of `cacheNode`s in LRU order
  (head = most recently used, tail = oldest); a map lookup is a key search in
  that list, and `len(c.items)` is the number of distinct keys.
* `internal/proxy/proxy.go` — cache keys (`getCacheKey`, `getPostCacheKey`),
  cacheability policy, the HTTP / HTTPS / POST handlers, and the leaf
  certificate LRU cache.

Machine integers (`int64` sizes) are embedded as `Int`; none of the
quantities involved can overflow 64 bits in any run considered here.
Instants (`time.Time`) are embedded as `Nat`; `time.Now()` becomes an
explicit `now` argument at each operation that reads the clock.  Go byte
slices are `List Nat`.
-/

namespace GoCache

/-- One cached HTTP response, struct `CacheEntry` of `internal/cache/cache.go`
(`StatusCode`, `Headers`, `Body`, `Expiry`).  `http.Header` is a multimap;
it is embedded as a list of (name, value) pairs. -/
structure CacheEntry where
  statusCode : Nat
  headers : List (String × String)
  body : List Nat
  expiry : Nat
deriving Repr, DecidableEq

/-- Struct `cacheNode`: a cache entry together with its key and its cached
body size, the value stored in each LRU list element. -/
structure cacheNode where
  key : String
  entry : CacheEntry
  size : Int
deriving Repr, DecidableEq

/-- Struct `MemoryCache`.  The Go fields `items` (map) and `lruList` (linked
list) are represented together by `lru`, the list of nodes in recency order
(head = front = most recent).  `currentSize` and `maxSize` are `int64` in Go,
embedded as `Int`. -/
structure MemoryCache where
  lru : List cacheNode
  currentSize : Int
  maxSize : Int
  defaultTTL : Nat
  hits : Nat
  misses : Nat
  evictions : Nat
deriving Repr, DecidableEq

/-- `NewMemoryCache(defaultTTL, maxSizeMB)`: empty store with
`maxSize = maxSizeMB * 1024 * 1024` (0 = unlimited). -/
def NewMemoryCache (defaultTTL : Nat) (maxSizeMB : Nat) : MemoryCache :=
  { lru := []
    currentSize := 0
    maxSize := (maxSizeMB : Int) * 1024 * 1024
    defaultTTL := defaultTTL
    hits := 0
    misses := 0
    evictions := 0 }

/-- `strings.HasPrefix`, as a structural function on the character lists
(the builtin `String.startsWith` does not reduce inside the kernel). -/
def strStartsWith (s pre : String) : Bool :=
  pre.data.isPrefixOf s.data

namespace MemoryCache

/-- The map lookup `c.items[key]`: the node linked under `key`, if any. -/
def findNode (l : List cacheNode) (k : String) : Option cacheNode :=
  l.find? (fun n => n.key == k)

/-- The keys currently in the store, in recency order. -/
def keys (c : MemoryCache) : List String :=
  c.lru.map (fun n => n.key)

/-- `len(c.items)`: the number of distinct keys in the map view. -/
def entryCount (c : MemoryCache) : Nat :=
  (keys c).dedup.length

/-- `removeElement`: unlink the node found under `k` from both list and map
and subtract its size (`cache.go` lines 98 to 105).  The Go method receives
the element itself; every caller has just found it under its key, so the
embedding removes by key.  A missing key is a no-op (callers guard on the
map lookup). -/
def removeElement (c : MemoryCache) (k : String) : MemoryCache :=
  match findNode c.lru k with
  | none => c
  | some node =>
    { c with
      lru := c.lru.eraseP (fun n => n.key == k)
      currentSize := c.currentSize - node.size }

/-- `evictLRU`: remove the back (least recently used) node and count an
eviction (`cache.go` lines 107 to 119).  Empty cache is a no-op (Go returns
`false`). -/
def evictLRU (c : MemoryCache) : MemoryCache :=
  match c.lru.getLast? with
  | none => c
  | some node =>
    { c with
      lru := c.lru.dropLast
      currentSize := c.currentSize - node.size
      evictions := c.evictions + 1 }

theorem evictLRU_lru_length_lt (c : MemoryCache) (h : c.lru ≠ []) :
    (evictLRU c).lru.length < c.lru.length := by
  unfold evictLRU
  cases hg : c.lru.getLast? with
  | none => exact absurd (List.getLast?_eq_none_iff.mp hg) h
  | some n =>
    simp only [List.length_dropLast]
    exact Nat.sub_lt (List.length_pos.mpr h) Nat.one_pos

/-- Body of the Go eviction loop of `evictUntilSize`, recursing on an
explicit iteration bound.  Each round either stops (the entry fits, or the
cache is empty and `evictLRU` reports `false`) or evicts the tail, which
shortens the list by one; `c.lru.length` rounds therefore always suffice,
and the bound only makes the loop structurally recursive. -/
def evictUntilSizeAux : Nat → MemoryCache → Int → MemoryCache
  | 0, c, _ => c
  | fuel + 1, c, needed =>
    if c.currentSize + needed > c.maxSize then
      if c.lru = [] then c
      else evictUntilSizeAux fuel (evictLRU c) needed
    else c

/-- `evictUntilSize`: evict LRU entries while
`currentSize + neededSize > maxSize`, stopping when the cache is empty;
`maxSize = 0` means unlimited (`cache.go` lines 121 to 133). -/
def evictUntilSize (c : MemoryCache) (needed : Int) : MemoryCache :=
  if c.maxSize = 0 then c
  else evictUntilSizeAux c.lru.length c needed

theorem evictLRU_length_of_ne {c : MemoryCache} (h : c.lru ≠ []) :
    (evictLRU c).lru.length = c.lru.length - 1 := by
  unfold evictLRU
  cases hg : c.lru.getLast? with
  | none => exact absurd (List.getLast?_eq_none_iff.mp hg) h
  | some n => simp [List.length_dropLast]

/-- `SetWithTTL` (`cache.go` lines 140 to 171): reject a single entry larger
than `maxSize` (when limited), drop any old entry under the key, evict until
the new entry fits, then link it at the front with
`Expiry = now + ttl`. -/
def SetWithTTL (c : MemoryCache) (now : Nat) (k : String) (e : CacheEntry)
    (ttl : Nat) : MemoryCache :=
  let entrySize : Int := (e.body.length : Int)
  if 0 < c.maxSize ∧ c.maxSize < entrySize then c
  else
    let c1 := removeElement c k
    let c2 := evictUntilSize c1 entrySize
    let node : cacheNode :=
      { key := k, entry := { e with expiry := now + ttl }, size := entrySize }
    { c2 with
      lru := node :: c2.lru
      currentSize := c2.currentSize + entrySize }

/-- `Set`: insert with the default TTL (`cache.go` lines 135 to 138). -/
def Set (c : MemoryCache) (now : Nat) (k : String) (e : CacheEntry) :
    MemoryCache :=
  SetWithTTL c now k e c.defaultTTL

/-- `Get` (`cache.go` lines 72 to 96): a missing key counts a miss; a found
entry whose expiry lies strictly before `now` (`time.Now().After(expiry)`) is
removed and counts a miss; otherwise the node moves to the front and the hit
is counted. -/
def Get (c : MemoryCache) (now : Nat) (k : String) :
    Option CacheEntry × MemoryCache :=
  match findNode c.lru k with
  | none => (none, { c with misses := c.misses + 1 })
  | some node =>
    if node.entry.expiry < now then
      (none, { removeElement c k with misses := c.misses + 1 })
    else
      (some node.entry,
       { c with
         lru := node :: c.lru.eraseP (fun n => n.key == k)
         hits := c.hits + 1 })

/-- `PurgeAll` (`cache.go` lines 252 to 265): returns `len(c.items)` and
resets entries, size and all three counters.  Under the key-uniqueness
invariant `len(c.items)` equals the list length used here. -/
def PurgeAll (c : MemoryCache) : Nat × MemoryCache :=
  (c.lru.length,
   { c with lru := [], currentSize := 0, hits := 0, misses := 0, evictions := 0 })

/-- `PurgeByURL` (`cache.go` lines 267 to 277). -/
def PurgeByURL (c : MemoryCache) (rawURL : String) : Bool × MemoryCache :=
  match findNode c.lru rawURL with
  | none => (false, c)
  | some _ => (true, removeElement c rawURL)

/-- `PurgeByDomain` (`cache.go` lines 279 to 302): collect the entries whose
key parses to a URL whose host starts with `domain`, then remove each.
`url.Parse` is abstracted by the parameter `hostOf` (`none` models a parse
error, which skips the key). -/
def PurgeByDomain (hostOf : String → Option String) (c : MemoryCache)
    (domain : String) : Nat × MemoryCache :=
  let keyMatch : cacheNode → Bool := fun n =>
    match hostOf n.key with
    | none => false
    | some h => strStartsWith h domain
  let toDelete := c.lru.filter keyMatch
  (toDelete.length, toDelete.foldl (fun acc n => removeElement acc n.key) c)

/-- A list is a permutation of its first `p`-match consed onto its
`eraseP p` remainder. -/
theorem find?_cons_eraseP_perm {α : Type} (p : α → Bool) :
    ∀ (l : List α) (a : α), l.find? p = some a → l.Perm (a :: l.eraseP p)
  | [], a, h => by simp [List.find?] at h
  | b :: t, a, h => by
    by_cases hb : p b
    · rw [List.find?_cons_of_pos _ hb] at h
      cases h
      rw [List.eraseP_cons_of_pos hb]
    · rw [List.find?_cons_of_neg _ hb] at h
      rw [List.eraseP_cons_of_neg hb]
      exact ((find?_cons_eraseP_perm p t a h).cons b).trans (List.Perm.swap a b _)

/-- The structural and accounting invariant of the response store
(spec section 3): keys are unique (the map view and the LRU list agree),
each node caches its body size, `currentSize` is the sum of the node sizes,
and the configured ceiling is respected when present. -/
structure Inv (c : MemoryCache) : Prop where
  nodup : (keys c).Nodup
  sizes : ∀ n ∈ c.lru, n.size = (n.entry.body.length : Int)
  total : c.currentSize = (c.lru.map (fun n => n.size)).sum
  bound : 0 < c.maxSize → c.currentSize ≤ c.maxSize

theorem size_nonneg_of_inv {c : MemoryCache} (h : Inv c) {n : cacheNode}
    (hn : n ∈ c.lru) : 0 ≤ n.size := by
  rw [h.sizes n hn]
  exact Int.natCast_nonneg _

theorem removeElement_misc (c : MemoryCache) (k : String) :
    (removeElement c k).maxSize = c.maxSize ∧
    (removeElement c k).defaultTTL = c.defaultTTL ∧
    (removeElement c k).hits = c.hits ∧
    (removeElement c k).misses = c.misses ∧
    (removeElement c k).evictions = c.evictions := by
  unfold removeElement
  cases findNode c.lru k <;> exact ⟨rfl, rfl, rfl, rfl, rfl⟩

theorem inv_removeElement {c : MemoryCache} (h : Inv c) (k : String) :
    Inv (removeElement c k) := by
  unfold removeElement
  cases hf : findNode c.lru k with
  | none => exact h
  | some node =>
    have hperm := find?_cons_eraseP_perm _ c.lru node hf
    have hsum := (hperm.map (fun n => n.size)).sum_eq
    rw [List.map_cons, List.sum_cons] at hsum
    refine ⟨?_, ?_, ?_, ?_⟩
    · have hknd : (c.lru.map (fun n => n.key)).Nodup := h.nodup
      have := (hperm.map (fun n => n.key)).nodup hknd
      rw [List.map_cons, List.nodup_cons] at this
      exact this.2
    · intro n hn
      exact h.sizes n ((List.eraseP_sublist c.lru).subset hn)
    · have := h.total
      simp only []
      omega
    · intro hm
      have hb := h.bound hm
      have hnn : 0 ≤ node.size :=
        size_nonneg_of_inv h (List.mem_of_find?_eq_some hf)
      simp only []
      omega

theorem not_mem_keys_removeElement {c : MemoryCache}
    (hnd : (keys c).Nodup) (k : String) : k ∉ keys (removeElement c k) := by
  unfold removeElement
  cases hf : findNode c.lru k with
  | none =>
    intro hk
    obtain ⟨n, hn, hkey⟩ := List.exists_of_mem_map hk
    have := (List.find?_eq_none.mp hf) n hn
    simp [hkey] at this
  | some node =>
    have hkey : node.key = k := by
      have := List.find?_some hf
      simpa using this
    have hperm := (find?_cons_eraseP_perm _ c.lru node hf).map (fun n => n.key)
    have hknd : (c.lru.map (fun n => n.key)).Nodup := hnd
    have hnd2 := hperm.nodup hknd
    rw [List.map_cons, List.nodup_cons] at hnd2
    intro hk
    exact hnd2.1 (hkey ▸ hk)

theorem evictLRU_decomp {c : MemoryCache} {node : cacheNode}
    (hg : c.lru.getLast? = some node) :
    c.lru.dropLast ++ [node] = c.lru := by
  have hne : c.lru ≠ [] := by
    intro h0
    rw [h0] at hg
    simp at hg
  have := List.getLast?_eq_getLast c.lru hne
  rw [this] at hg
  cases hg
  exact List.dropLast_concat_getLast hne

theorem evictLRU_misc (c : MemoryCache) :
    (evictLRU c).maxSize = c.maxSize ∧
    (evictLRU c).defaultTTL = c.defaultTTL ∧
    (evictLRU c).hits = c.hits ∧
    (evictLRU c).misses = c.misses := by
  unfold evictLRU
  cases c.lru.getLast? <;> exact ⟨rfl, rfl, rfl, rfl⟩

theorem inv_evictLRU {c : MemoryCache} (h : Inv c) : Inv (evictLRU c) := by
  unfold evictLRU
  cases hg : c.lru.getLast? with
  | none => exact h
  | some node =>
    have hd := evictLRU_decomp hg
    have hmem : node ∈ c.lru := by
      rw [← hd]
      exact List.mem_append_right _ (List.mem_singleton.mpr rfl)
    have hsum : c.currentSize =
        (c.lru.dropLast.map (fun n => n.size)).sum + node.size := by
      rw [h.total, ← hd]
      simp
    refine ⟨?_, ?_, ?_, ?_⟩
    · have hknd : (c.lru.map (fun n => n.key)).Nodup := h.nodup
      exact (((List.dropLast_sublist c.lru).map (fun n => n.key)).nodup hknd : _)
    · intro n hn
      exact h.sizes n ((List.dropLast_sublist c.lru).subset hn)
    · simp only []
      omega
    · intro hm
      have hb := h.bound hm
      have hnn : 0 ≤ node.size := size_nonneg_of_inv h hmem
      simp only []
      omega

theorem evictUntilSizeAux_misc :
    ∀ (fuel : Nat) (c : MemoryCache) (needed : Int),
      (evictUntilSizeAux fuel c needed).maxSize = c.maxSize ∧
      (evictUntilSizeAux fuel c needed).defaultTTL = c.defaultTTL ∧
      (evictUntilSizeAux fuel c needed).hits = c.hits ∧
      (evictUntilSizeAux fuel c needed).misses = c.misses
  | 0, c, needed => ⟨rfl, rfl, rfl, rfl⟩
  | fuel + 1, c, needed => by
    simp only [evictUntilSizeAux]
    split
    · split
      · exact ⟨rfl, rfl, rfl, rfl⟩
      · have ih := evictUntilSizeAux_misc fuel (evictLRU c) needed
        have hm := evictLRU_misc c
        exact ⟨ih.1.trans hm.1, ih.2.1.trans hm.2.1,
               ih.2.2.1.trans hm.2.2.1, ih.2.2.2.trans hm.2.2.2⟩
    · exact ⟨rfl, rfl, rfl, rfl⟩

theorem evictUntilSize_misc (c : MemoryCache) (needed : Int) :
    (evictUntilSize c needed).maxSize = c.maxSize ∧
    (evictUntilSize c needed).defaultTTL = c.defaultTTL ∧
    (evictUntilSize c needed).hits = c.hits ∧
    (evictUntilSize c needed).misses = c.misses := by
  rw [evictUntilSize]
  split
  · exact ⟨rfl, rfl, rfl, rfl⟩
  · exact evictUntilSizeAux_misc _ c needed

theorem evictUntilSizeAux_lru_sublist :
    ∀ (fuel : Nat) (c : MemoryCache) (needed : Int),
      (evictUntilSizeAux fuel c needed).lru.Sublist c.lru
  | 0, c, needed => List.Sublist.refl _
  | fuel + 1, c, needed => by
    simp only [evictUntilSizeAux]
    split
    · split
      · exact List.Sublist.refl _
      · refine (evictUntilSizeAux_lru_sublist fuel (evictLRU c) needed).trans ?_
        unfold evictLRU
        cases c.lru.getLast?
        · exact List.Sublist.refl _
        · exact List.dropLast_sublist c.lru
    · exact List.Sublist.refl _

theorem evictUntilSize_lru_sublist (c : MemoryCache) (needed : Int) :
    (evictUntilSize c needed).lru.Sublist c.lru := by
  rw [evictUntilSize]
  split
  · exact List.Sublist.refl _
  · exact evictUntilSizeAux_lru_sublist _ c needed

theorem inv_evictUntilSizeAux :
    ∀ (fuel : Nat) {c : MemoryCache}, Inv c → ∀ (needed : Int),
      Inv (evictUntilSizeAux fuel c needed)
  | 0, c, h, needed => h
  | fuel + 1, c, h, needed => by
    simp only [evictUntilSizeAux]
    split
    · split
      · exact h
      · exact inv_evictUntilSizeAux fuel (inv_evictLRU h) needed
    · exact h

theorem inv_evictUntilSize {c : MemoryCache} (h : Inv c) (needed : Int) :
    Inv (evictUntilSize c needed) := by
  rw [evictUntilSize]
  split
  · exact h
  · exact inv_evictUntilSizeAux _ h needed

theorem evictUntilSizeAux_fits :
    ∀ (fuel : Nat) {c : MemoryCache}, Inv c → c.lru.length ≤ fuel →
      ∀ {needed : Int}, 0 < c.maxSize → needed ≤ c.maxSize →
      (evictUntilSizeAux fuel c needed).currentSize + needed ≤ c.maxSize
  | 0, c, h, hlen, needed, hpos, hfit => by
    have hnil : c.lru = [] := List.length_eq_zero.mp (Nat.le_zero.mp hlen)
    have := h.total
    rw [hnil] at this
    simp at this
    simp only [evictUntilSizeAux]
    omega
  | fuel + 1, c, h, hlen, needed, hpos, hfit => by
    simp only [evictUntilSizeAux]
    split
    · split
      · rename_i h0 hnil
        have := h.total
        rw [hnil] at this
        simp at this
        omega
      · rename_i h0 hnil
        have hmax := (evictLRU_misc c).1
        have hlen2 : (evictLRU c).lru.length ≤ fuel := by
          rw [evictLRU_length_of_ne hnil]
          omega
        have := @evictUntilSizeAux_fits fuel (evictLRU c) (inv_evictLRU h)
          hlen2 needed (hmax ▸ hpos) (hmax ▸ hfit)
        rwa [hmax] at this
    · omega

/-- After the eviction loop the requested size fits under the ceiling: the
loop only stops early when the cache has been emptied, and an empty cache
has `currentSize = 0`, so a single entry that passed the oversize check
always fits. -/
theorem evictUntilSize_fits {c : MemoryCache} (h : Inv c) {needed : Int}
    (hpos : 0 < c.maxSize) (hfit : needed ≤ c.maxSize) :
    (evictUntilSize c needed).currentSize + needed ≤ c.maxSize := by
  rw [evictUntilSize]
  split
  · omega
  · exact evictUntilSizeAux_fits _ h (Nat.le_refl _) hpos hfit

theorem SetWithTTL_oversized {c : MemoryCache} {now : Nat} {k : String}
    {e : CacheEntry} {ttl : Nat}
    (hover : 0 < c.maxSize ∧ c.maxSize < (e.body.length : Int)) :
    SetWithTTL c now k e ttl = c := by
  simp only [SetWithTTL]
  rw [if_pos hover]

theorem SetWithTTL_ok {c : MemoryCache} {now : Nat} {k : String}
    {e : CacheEntry} {ttl : Nat}
    (hsize : ¬(0 < c.maxSize ∧ c.maxSize < (e.body.length : Int))) :
    SetWithTTL c now k e ttl =
      { evictUntilSize (removeElement c k) (e.body.length : Int) with
        lru := { key := k, entry := { e with expiry := now + ttl },
                 size := (e.body.length : Int) } ::
               (evictUntilSize (removeElement c k) (e.body.length : Int)).lru
        currentSize :=
          (evictUntilSize (removeElement c k) (e.body.length : Int)).currentSize
            + (e.body.length : Int) } := by
  simp only [SetWithTTL]
  rw [if_neg hsize]

theorem inv_SetWithTTL {c : MemoryCache} (h : Inv c) (now : Nat) (k : String)
    (e : CacheEntry) (ttl : Nat) : Inv (SetWithTTL c now k e ttl) := by
  by_cases hover : 0 < c.maxSize ∧ c.maxSize < (e.body.length : Int)
  · rw [SetWithTTL_oversized hover]
    exact h
  · rw [SetWithTTL_ok hover]
    have h1 := inv_removeElement h k
    have h2 : Inv (evictUntilSize (removeElement c k) ((e.body.length : Int))) :=
      inv_evictUntilSize h1 _
    have hsub :=
      evictUntilSize_lru_sublist (removeElement c k) ((e.body.length : Int))
    have hk2 : k ∉ (evictUntilSize (removeElement c k)
        ((e.body.length : Int))).lru.map (fun n => n.key) := by
      intro hk
      exact not_mem_keys_removeElement h.nodup k
        ((hsub.map (fun n => n.key)).subset hk)
    have hmax2 : (evictUntilSize (removeElement c k)
        ((e.body.length : Int))).maxSize = c.maxSize := by
      rw [(evictUntilSize_misc _ _).1, (removeElement_misc _ _).1]
    have hknd : ((evictUntilSize (removeElement c k)
        ((e.body.length : Int))).lru.map (fun n => n.key)).Nodup := h2.nodup
    refine ⟨?_, ?_, ?_, ?_⟩
    · simp only [keys, List.map_cons]
      exact List.nodup_cons.mpr ⟨hk2, hknd⟩
    · intro n hn
      simp only [List.mem_cons] at hn
      rcases hn with hn | hn
      · rw [hn]
      · exact h2.sizes n hn
    · simp only [List.map_cons, List.sum_cons]
      rw [h2.total]
      ring
    · intro hm
      simp only [] at hm
      rw [hmax2] at hm
      have hfit : (e.body.length : Int) ≤ c.maxSize := by
        rcases not_and_or.mp hover with hc | hc
        · omega
        · omega
      have hfits := @evictUntilSize_fits (removeElement c k) h1
        ((e.body.length : Int))
        (by rw [(removeElement_misc c k).1]; exact hm)
        (by rw [(removeElement_misc c k).1]; exact hfit)
      rw [(removeElement_misc c k).1] at hfits
      simp only []
      rw [hmax2]
      exact hfits

theorem SetWithTTL_misc (c : MemoryCache) (now : Nat) (k : String)
    (e : CacheEntry) (ttl : Nat) :
    (SetWithTTL c now k e ttl).maxSize = c.maxSize ∧
    (SetWithTTL c now k e ttl).defaultTTL = c.defaultTTL ∧
    (SetWithTTL c now k e ttl).hits = c.hits ∧
    (SetWithTTL c now k e ttl).misses = c.misses := by
  by_cases hover : 0 < c.maxSize ∧ c.maxSize < (e.body.length : Int)
  · rw [SetWithTTL_oversized hover]
    exact ⟨rfl, rfl, rfl, rfl⟩
  · rw [SetWithTTL_ok hover]
    simp only []
    rw [(evictUntilSize_misc _ _).1, (removeElement_misc _ _).1,
      (evictUntilSize_misc _ _).2.1, (removeElement_misc _ _).2.1,
      (evictUntilSize_misc _ _).2.2.1, (removeElement_misc _ _).2.2.1,
      (evictUntilSize_misc _ _).2.2.2, (removeElement_misc _ _).2.2.2.1]
    exact ⟨rfl, rfl, rfl, rfl⟩

theorem Get_none {c : MemoryCache} {now : Nat} {k : String}
    (h : findNode c.lru k = none) :
    Get c now k = (none, { c with misses := c.misses + 1 }) := by
  unfold Get
  rw [h]

theorem Get_expired {c : MemoryCache} {now : Nat} {k : String}
    {node : cacheNode} (h : findNode c.lru k = some node)
    (hx : node.entry.expiry < now) :
    Get c now k =
      (none, { removeElement c k with misses := c.misses + 1 }) := by
  unfold Get
  rw [h]
  simp only [if_pos hx]

theorem Get_fresh {c : MemoryCache} {now : Nat} {k : String}
    {node : cacheNode} (h : findNode c.lru k = some node)
    (hx : ¬node.entry.expiry < now) :
    Get c now k =
      (some node.entry,
       { c with
         lru := node :: c.lru.eraseP (fun n => n.key == k)
         hits := c.hits + 1 }) := by
  unfold Get
  rw [h]
  simp only [if_neg hx]

theorem inv_Get {c : MemoryCache} (h : Inv c) (now : Nat) (k : String) :
    Inv (Get c now k).2 := by
  cases hf : findNode c.lru k with
  | none =>
    rw [Get_none hf]
    exact ⟨h.nodup, h.sizes, h.total, h.bound⟩
  | some node =>
    by_cases hx : node.entry.expiry < now
    · rw [Get_expired hf hx]
      have hr := inv_removeElement h k
      exact ⟨hr.nodup, hr.sizes, hr.total, hr.bound⟩
    · rw [Get_fresh hf hx]
      have hperm := find?_cons_eraseP_perm _ c.lru node hf
      have hknd : (c.lru.map (fun n => n.key)).Nodup := h.nodup
      have hnd2 : ((node :: c.lru.eraseP (fun n => n.key == k)).map
          (fun n => n.key)).Nodup := (hperm.map (fun n => n.key)).nodup hknd
      refine ⟨hnd2, ?_, ?_, h.bound⟩
      · intro n hn
        exact h.sizes n (hperm.mem_iff.mpr hn)
      · rw [h.total]
        exact (hperm.map (fun n => n.size)).sum_eq

theorem Get_misc (c : MemoryCache) (now : Nat) (k : String) :
    (Get c now k).2.maxSize = c.maxSize ∧
    (Get c now k).2.defaultTTL = c.defaultTTL := by
  cases hf : findNode c.lru k with
  | none =>
    rw [Get_none hf]
    exact ⟨rfl, rfl⟩
  | some node =>
    by_cases hx : node.entry.expiry < now
    · rw [Get_expired hf hx]
      exact ⟨(removeElement_misc c k).1, (removeElement_misc c k).2.1⟩
    · rw [Get_fresh hf hx]
      exact ⟨rfl, rfl⟩

/-- Each `Get` bumps exactly one of the two counters: `hits` on a live
entry, `misses` on a missing key or an expired entry. -/
theorem Get_counters (c : MemoryCache) (now : Nat) (k : String) :
    ((Get c now k).2.hits = c.hits + 1 ∧ (Get c now k).2.misses = c.misses) ∨
    ((Get c now k).2.hits = c.hits ∧
     (Get c now k).2.misses = c.misses + 1) := by
  cases hf : findNode c.lru k with
  | none =>
    rw [Get_none hf]
    exact Or.inr ⟨rfl, rfl⟩
  | some node =>
    by_cases hx : node.entry.expiry < now
    · rw [Get_expired hf hx]
      exact Or.inr ⟨(removeElement_misc c k).2.2.1, rfl⟩
    · rw [Get_fresh hf hx]
      exact Or.inl ⟨rfl, rfl⟩

theorem inv_PurgeAll {c : MemoryCache} (h : Inv c) : Inv (PurgeAll c).2 := by
  refine ⟨?_, ?_, ?_, ?_⟩
  · simp [keys, PurgeAll]
  · simp [PurgeAll]
  · simp [PurgeAll]
  · intro hm
    simp only [PurgeAll] at hm ⊢
    exact le_of_lt hm

theorem PurgeByURL_found {c : MemoryCache} {u : String} {node : cacheNode}
    (h : findNode c.lru u = some node) :
    PurgeByURL c u = (true, removeElement c u) := by
  unfold PurgeByURL
  rw [h]

theorem PurgeByURL_missing {c : MemoryCache} {u : String}
    (h : findNode c.lru u = none) : PurgeByURL c u = (false, c) := by
  unfold PurgeByURL
  rw [h]

theorem inv_PurgeByURL {c : MemoryCache} (h : Inv c) (u : String) :
    Inv (PurgeByURL c u).2 := by
  cases hf : findNode c.lru u with
  | none => rw [PurgeByURL_missing hf]; exact h
  | some node => rw [PurgeByURL_found hf]; exact inv_removeElement h u

theorem PurgeByURL_misc (c : MemoryCache) (u : String) :
    (PurgeByURL c u).2.maxSize = c.maxSize ∧
    (PurgeByURL c u).2.defaultTTL = c.defaultTTL ∧
    (PurgeByURL c u).2.hits = c.hits ∧
    (PurgeByURL c u).2.misses = c.misses := by
  cases hf : findNode c.lru u with
  | none => rw [PurgeByURL_missing hf]; exact ⟨rfl, rfl, rfl, rfl⟩
  | some node =>
    rw [PurgeByURL_found hf]
    exact ⟨(removeElement_misc c u).1, (removeElement_misc c u).2.1,
      (removeElement_misc c u).2.2.1, (removeElement_misc c u).2.2.2.1⟩

theorem inv_fold_removeElement (l : List cacheNode) :
    ∀ (c : MemoryCache), Inv c →
      Inv (l.foldl (fun acc n => removeElement acc n.key) c) := by
  induction l with
  | nil => intro c h; exact h
  | cons a t ih => intro c h; exact ih _ (inv_removeElement h a.key)

theorem fold_removeElement_misc (l : List cacheNode) :
    ∀ (c : MemoryCache),
      (l.foldl (fun acc n => removeElement acc n.key) c).maxSize = c.maxSize ∧
      (l.foldl (fun acc n => removeElement acc n.key) c).defaultTTL
        = c.defaultTTL ∧
      (l.foldl (fun acc n => removeElement acc n.key) c).hits = c.hits ∧
      (l.foldl (fun acc n => removeElement acc n.key) c).misses = c.misses := by
  induction l with
  | nil => intro c; exact ⟨rfl, rfl, rfl, rfl⟩
  | cons a t ih =>
    intro c
    have hi := ih (removeElement c a.key)
    have hm := removeElement_misc c a.key
    exact ⟨hi.1.trans hm.1, hi.2.1.trans hm.2.1,
      hi.2.2.1.trans hm.2.2.1, hi.2.2.2.trans hm.2.2.2.1⟩

theorem inv_PurgeByDomain {c : MemoryCache} (h : Inv c)
    (hostOf : String → Option String) (d : String) :
    Inv (PurgeByDomain hostOf c d).2 := by
  simp only [PurgeByDomain]
  exact inv_fold_removeElement _ c h

theorem PurgeByDomain_misc (hostOf : String → Option String)
    (c : MemoryCache) (d : String) :
    (PurgeByDomain hostOf c d).2.maxSize = c.maxSize ∧
    (PurgeByDomain hostOf c d).2.defaultTTL = c.defaultTTL ∧
    (PurgeByDomain hostOf c d).2.hits = c.hits ∧
    (PurgeByDomain hostOf c d).2.misses = c.misses := by
  simp only [PurgeByDomain]
  exact fold_removeElement_misc _ c

/-- A fresh store satisfies the invariant. -/
theorem inv_NewMemoryCache (defaultTTL maxSizeMB : Nat) :
    Inv (NewMemoryCache defaultTTL maxSizeMB) := by
  refine ⟨?_, ?_, ?_, ?_⟩
  · simp [keys, NewMemoryCache]
  · simp [NewMemoryCache]
  · simp [NewMemoryCache]
  · intro hm
    simp only [NewMemoryCache] at hm ⊢
    exact le_of_lt hm

end MemoryCache

/-- A client-visible store operation, for stating properties over arbitrary
operation sequences. -/
inductive Op where
  | setOp (now : Nat) (key : String) (e : CacheEntry) (ttl : Nat)
  | getOp (now : Nat) (key : String)
  | purgeAllOp
  | purgeURLOp (key : String)
  | purgeDomainOp (domain : String)
deriving Repr, DecidableEq

/-- Apply one operation to the store (`hostOf` abstracts `url.Parse` for
domain purges). -/
def applyOp (hostOf : String → Option String) (c : MemoryCache) :
    Op → MemoryCache
  | .setOp now k e ttl => MemoryCache.SetWithTTL c now k e ttl
  | .getOp now k => (MemoryCache.Get c now k).2
  | .purgeAllOp => (MemoryCache.PurgeAll c).2
  | .purgeURLOp k => (MemoryCache.PurgeByURL c k).2
  | .purgeDomainOp d => (MemoryCache.PurgeByDomain hostOf c d).2

/-- Run a sequence of operations left to right. -/
def runOps (hostOf : String → Option String) (c : MemoryCache)
    (ops : List Op) : MemoryCache :=
  ops.foldl (applyOp hostOf) c

theorem inv_applyOp (hostOf : String → Option String) {c : MemoryCache}
    (h : MemoryCache.Inv c) (op : Op) :
    MemoryCache.Inv (applyOp hostOf c op) := by
  cases op with
  | setOp now k e ttl => exact MemoryCache.inv_SetWithTTL h now k e ttl
  | getOp now k => exact MemoryCache.inv_Get h now k
  | purgeAllOp => exact MemoryCache.inv_PurgeAll h
  | purgeURLOp k => exact MemoryCache.inv_PurgeByURL h k
  | purgeDomainOp d => exact MemoryCache.inv_PurgeByDomain h hostOf d

theorem inv_runOps (hostOf : String → Option String) (ops : List Op) :
    ∀ {c : MemoryCache}, MemoryCache.Inv c →
      MemoryCache.Inv (runOps hostOf c ops) := by
  induction ops with
  | nil => intro c h; exact h
  | cons op t ih => intro c h; exact ih (inv_applyOp hostOf h op)

/-- Whether an operation is a lookup (`Get`). -/
def isLookup : Op → Bool
  | .getOp _ _ => true
  | _ => false

/-- The number of lookup calls in a sequence of operations. -/
def numLookups (ops : List Op) : Nat :=
  (ops.filter isLookup).length

theorem applyOp_counter_sum (hostOf : String → Option String)
    (c : MemoryCache) (op : Op) (hne : op ≠ Op.purgeAllOp) :
    (applyOp hostOf c op).hits + (applyOp hostOf c op).misses
      = c.hits + c.misses + (if isLookup op then 1 else 0) := by
  cases op with
  | setOp now k e ttl =>
    have h := MemoryCache.SetWithTTL_misc c now k e ttl
    simp only [applyOp, isLookup, if_neg Bool.false_ne_true]
    omega
  | getOp now k =>
    have h := MemoryCache.Get_counters c now k
    simp only [applyOp, isLookup, if_true]
    omega
  | purgeAllOp => exact absurd rfl hne
  | purgeURLOp k =>
    have h := MemoryCache.PurgeByURL_misc c k
    simp only [applyOp, isLookup, if_neg Bool.false_ne_true]
    omega
  | purgeDomainOp d =>
    have h := MemoryCache.PurgeByDomain_misc hostOf c d
    simp only [applyOp, isLookup, if_neg Bool.false_ne_true]
    omega

theorem numLookups_cons (op : Op) (t : List Op) :
    numLookups (op :: t) = (if isLookup op then 1 else 0) + numLookups t := by
  simp only [numLookups, List.filter_cons]
  split
  · simp
    omega
  · simp

theorem runOps_counter_sum (hostOf : String → Option String) (ops : List Op) :
    ∀ (c : MemoryCache), Op.purgeAllOp ∉ ops →
      (runOps hostOf c ops).hits + (runOps hostOf c ops).misses
        = c.hits + c.misses + numLookups ops := by
  induction ops with
  | nil =>
    intro c _
    simp [runOps, numLookups]
  | cons op t ih =>
    intro c hno
    have hne : op ≠ Op.purgeAllOp := by
      intro h
      exact hno (h ▸ List.mem_cons_self op t)
    have hnt : Op.purgeAllOp ∉ t := fun h => hno (List.mem_cons_of_mem _ h)
    have hstep := applyOp_counter_sum hostOf c op hne
    have htail := ih (applyOp hostOf c op) hnt
    have hrun : runOps hostOf c (op :: t)
        = runOps hostOf (applyOp hostOf c op) t := rfl
    rw [hrun, htail, numLookups_cons]
    omega

/-- C3: after any sequence of insert (`Set`/`SetWithTTL`), purge
(`PurgeAll`/`PurgeByURL`/`PurgeByDomain`) and lookup (`Get`) operations on a
fresh store, `currentSize` equals the sum of the stored body sizes, the
number of map entries equals the length of the LRU list, and
`currentSize ≤ maxSize` whenever `maxSize > 0`. -/
theorem C3_size_invariant_over_sequences (hostOf : String → Option String)
    (defaultTTL maxSizeMB : Nat) (ops : List Op) :
    (runOps hostOf (NewMemoryCache defaultTTL maxSizeMB) ops).currentSize
      = ((runOps hostOf (NewMemoryCache defaultTTL maxSizeMB) ops).lru.map
          (fun n => (n.entry.body.length : Int))).sum ∧
    MemoryCache.entryCount
        (runOps hostOf (NewMemoryCache defaultTTL maxSizeMB) ops)
      = (runOps hostOf (NewMemoryCache defaultTTL maxSizeMB) ops).lru.length ∧
    (0 < (runOps hostOf (NewMemoryCache defaultTTL maxSizeMB) ops).maxSize →
      (runOps hostOf (NewMemoryCache defaultTTL maxSizeMB) ops).currentSize
        ≤ (runOps hostOf (NewMemoryCache defaultTTL maxSizeMB) ops).maxSize) := by
  have h := inv_runOps hostOf ops
    (MemoryCache.inv_NewMemoryCache defaultTTL maxSizeMB)
  refine ⟨?_, ?_, h.bound⟩
  · rw [h.total]
    exact congrArg List.sum (List.map_congr_left h.sizes)
  · have hnd : (List.map (fun n => n.key)
        (runOps hostOf (NewMemoryCache defaultTTL maxSizeMB) ops).lru).Nodup :=
      h.nodup
    simp only [MemoryCache.entryCount, MemoryCache.keys,
      List.dedup_eq_self.mpr hnd, List.length_map]

/-- Closed instance of `C3_size_invariant_over_sequences`, discharging the
positive-ceiling hypothesis at a concrete run. -/
theorem C3_size_invariant_over_sequences_witness :
    (runOps (fun _ => none) (NewMemoryCache 60 1)
        [Op.setOp 0 "k" ⟨200, [], [1, 2, 3], 0⟩ 10,
         Op.getOp 5 "k"]).currentSize
      ≤ (runOps (fun _ => none) (NewMemoryCache 60 1)
        [Op.setOp 0 "k" ⟨200, [], [1, 2, 3], 0⟩ 10, Op.getOp 5 "k"]).maxSize :=
  (C3_size_invariant_over_sequences (fun _ => none) 60 1
    [Op.setOp 0 "k" ⟨200, [], [1, 2, 3], 0⟩ 10, Op.getOp 5 "k"]).2.2
    (by decide)

/-- C4: with a positive ceiling, inserting an entry whose body exceeds the
ceiling leaves the store completely unchanged (no insertion, no eviction,
no counter change). -/
theorem C4_oversized_insert_noop (c : MemoryCache) (now : Nat) (k : String)
    (e : CacheEntry) (ttl : Nat) (hmax : 0 < c.maxSize)
    (hover : c.maxSize < (e.body.length : Int)) :
    MemoryCache.SetWithTTL c now k e ttl = c :=
  MemoryCache.SetWithTTL_oversized ⟨hmax, hover⟩

/-- Closed instance of `C4_oversized_insert_noop`: a three-byte body against
a two-byte ceiling. -/
theorem C4_oversized_insert_noop_witness :
    MemoryCache.SetWithTTL ⟨[], 0, 2, 60, 0, 0, 0⟩ 0 "k"
        ⟨200, [], [1, 2, 3], 0⟩ 30 = ⟨[], 0, 2, 60, 0, 0, 0⟩ :=
  C4_oversized_insert_noop ⟨[], 0, 2, 60, 0, 0, 0⟩ 0 "k"
    ⟨200, [], [1, 2, 3], 0⟩ 30 (by decide) (by decide)

/-- C6: a lookup of a key whose stored entry expired strictly before the
current instant returns none, removes the entry from the store and counts a
miss (leaving hits unchanged); and a lookup never returns an entry whose
expiry lies strictly before the current instant. -/
theorem C6_expired_lookup_removes :
    (∀ (c : MemoryCache) (now : Nat) (k : String) (node : cacheNode),
      (MemoryCache.keys c).Nodup →
      MemoryCache.findNode c.lru k = some node →
      node.entry.expiry < now →
      (MemoryCache.Get c now k).1 = none ∧
      k ∉ MemoryCache.keys (MemoryCache.Get c now k).2 ∧
      (MemoryCache.Get c now k).2.misses = c.misses + 1 ∧
      (MemoryCache.Get c now k).2.hits = c.hits) ∧
    (∀ (c : MemoryCache) (now : Nat) (k : String) (e : CacheEntry),
      (MemoryCache.Get c now k).1 = some e → ¬e.expiry < now) := by
  constructor
  · intro c now k node hnd hf hx
    rw [MemoryCache.Get_expired hf hx]
    have hnot : k ∉ MemoryCache.keys (MemoryCache.removeElement c k) :=
      MemoryCache.not_mem_keys_removeElement hnd k
    exact ⟨rfl, hnot, rfl, (MemoryCache.removeElement_misc c k).2.2.1⟩
  · intro c now k e he
    cases hf : MemoryCache.findNode c.lru k with
    | none =>
      rw [MemoryCache.Get_none hf] at he
      exact absurd he (by simp)
    | some node =>
      by_cases hx : node.entry.expiry < now
      · rw [MemoryCache.Get_expired hf hx] at he
        exact absurd he (by simp)
      · rw [MemoryCache.Get_fresh hf hx] at he
        have : e = node.entry := by
          simpa using he.symm
        rw [this]
        exact hx

/-- Closed instance of `C6_expired_lookup_removes` at a store holding one
entry that expired at instant 5, looked up at instant 10. -/
theorem C6_expired_lookup_removes_witness :
    (MemoryCache.Get ⟨[⟨"k", ⟨200, [], [7], 5⟩, 1⟩], 1, 0, 60, 0, 0, 0⟩
        10 "k").1 = none ∧
    "k" ∉ MemoryCache.keys (MemoryCache.Get
        ⟨[⟨"k", ⟨200, [], [7], 5⟩, 1⟩], 1, 0, 60, 0, 0, 0⟩ 10 "k").2 ∧
    (MemoryCache.Get ⟨[⟨"k", ⟨200, [], [7], 5⟩, 1⟩], 1, 0, 60, 0, 0, 0⟩
        10 "k").2.misses = 0 + 1 ∧
    (MemoryCache.Get ⟨[⟨"k", ⟨200, [], [7], 5⟩, 1⟩], 1, 0, 60, 0, 0, 0⟩
        10 "k").2.hits = 0 :=
  C6_expired_lookup_removes.1
    ⟨[⟨"k", ⟨200, [], [7], 5⟩, 1⟩], 1, 0, 60, 0, 0, 0⟩ 10 "k"
    ⟨"k", ⟨200, [], [7], 5⟩, 1⟩ (by decide) (by decide) (by decide)

/-- C10: every lookup bumps exactly one of the two counters (hits on a live
entry, misses on a missing key or an expired entry), and over any operation
sequence containing no `PurgeAll` the sum `hits + misses` grows by exactly
the number of lookup calls. -/
theorem C10_hits_misses_accounting :
    (∀ (c : MemoryCache) (now : Nat) (k : String),
      ((MemoryCache.Get c now k).1.isSome = true →
        (MemoryCache.Get c now k).2.hits = c.hits + 1 ∧
        (MemoryCache.Get c now k).2.misses = c.misses) ∧
      ((MemoryCache.Get c now k).1.isSome = false →
        (MemoryCache.Get c now k).2.hits = c.hits ∧
        (MemoryCache.Get c now k).2.misses = c.misses + 1)) ∧
    (∀ (hostOf : String → Option String) (c : MemoryCache) (ops : List Op),
      Op.purgeAllOp ∉ ops →
      (runOps hostOf c ops).hits + (runOps hostOf c ops).misses
        = c.hits + c.misses + numLookups ops) := by
  constructor
  · intro c now k
    cases hf : MemoryCache.findNode c.lru k with
    | none =>
      rw [MemoryCache.Get_none hf]
      exact ⟨(by intro h; simp at h), fun _ => ⟨rfl, rfl⟩⟩
    | some node =>
      by_cases hx : node.entry.expiry < now
      · rw [MemoryCache.Get_expired hf hx]
        exact ⟨(by intro h; simp at h),
          fun _ => ⟨(MemoryCache.removeElement_misc c k).2.2.1, rfl⟩⟩
      · rw [MemoryCache.Get_fresh hf hx]
        exact ⟨fun _ => ⟨rfl, rfl⟩, (by intro h; simp at h)⟩
  · intro hostOf c ops hno
    exact runOps_counter_sum hostOf ops c hno

/-- Closed instance of `C10_hits_misses_accounting` on a short concrete
run: one hit, one miss, one insert. -/
theorem C10_hits_misses_accounting_witness :
    (runOps (fun _ => none) (NewMemoryCache 60 0)
        [Op.setOp 0 "k" ⟨200, [], [7], 0⟩ 10, Op.getOp 1 "k",
         Op.getOp 1 "other"]).hits
      + (runOps (fun _ => none) (NewMemoryCache 60 0)
        [Op.setOp 0 "k" ⟨200, [], [7], 0⟩ 10, Op.getOp 1 "k",
         Op.getOp 1 "other"]).misses
      = (NewMemoryCache 60 0).hits + (NewMemoryCache 60 0).misses
        + numLookups [Op.setOp 0 "k" ⟨200, [], [7], 0⟩ 10, Op.getOp 1 "k",
            Op.getOp 1 "other"] :=
  C10_hits_misses_accounting.2 (fun _ => none) (NewMemoryCache 60 0)
    [Op.setOp 0 "k" ⟨200, [], [7], 0⟩ 10, Op.getOp 1 "k",
     Op.getOp 1 "other"] (by decide)

namespace MemoryCache

theorem removeElement_not_found {c : MemoryCache} {k : String}
    (h : findNode c.lru k = none) : removeElement c k = c := by
  unfold removeElement
  rw [h]

theorem evictUntilSizeAux_stop (fuel : Nat) (c : MemoryCache) (needed : Int)
    (h : ¬c.currentSize + needed > c.maxSize) :
    evictUntilSizeAux fuel c needed = c := by
  cases fuel
  · rfl
  · simp only [evictUntilSizeAux, if_neg h]

theorem evictUntilSize_stop {c : MemoryCache} {needed : Int}
    (h : ¬c.currentSize + needed > c.maxSize) :
    evictUntilSize c needed = c := by
  rw [evictUntilSize]
  split
  · rfl
  · exact evictUntilSizeAux_stop _ c needed h

theorem evictUntilSizeAux_step {fuel : Nat} {c : MemoryCache} {needed : Int}
    (h1 : c.currentSize + needed > c.maxSize) (h2 : ¬c.lru = []) :
    evictUntilSizeAux (fuel + 1) c needed
      = evictUntilSizeAux fuel (evictLRU c) needed := by
  simp only [evictUntilSizeAux, if_pos h1, if_neg h2]

/-- Inserting under a fresh key when the entry already fits links the new
node at the front and adds its size; nothing is evicted. -/
theorem SetWithTTL_fresh_fits {c : MemoryCache} {now : Nat} {k : String}
    {e : CacheEntry} {ttl : Nat}
    (hfind : findNode c.lru k = none)
    (hfit : ¬c.currentSize + (e.body.length : Int) > c.maxSize)
    (hsize : ¬(0 < c.maxSize ∧ c.maxSize < (e.body.length : Int))) :
    SetWithTTL c now k e ttl =
      { c with
        lru := { key := k, entry := { e with expiry := now + ttl },
                 size := (e.body.length : Int) } :: c.lru
        currentSize := c.currentSize + (e.body.length : Int) } := by
  rw [SetWithTTL_ok hsize, removeElement_not_found hfind,
    evictUntilSize_stop hfit]

end MemoryCache

/-- The LRU ordering scenario of spec section 8: insert A, B, C, look up A,
insert D, all at one instant. -/
def lruScenarioOps (now ttl : Nat) (kA kB kC kD : String)
    (eA eB eC eD : CacheEntry) : List Op :=
  [Op.setOp now kA eA ttl, Op.setOp now kB eB ttl, Op.setOp now kC eC ttl,
   Op.getOp now kA, Op.setOp now kD eD ttl]

/-- C5 as literally stated fails without a size side condition: with
size(A) = size(C) = size(D) = 1 and size(B) = 2, the ceiling is
max_size = size(A)+size(C)+size(D) = 3, but insert(C) already needs an
eviction and evicts A, so the final state holds only D and C: it does not
contain A, and the evicted entries are A and B, not B alone. -/
theorem C5_lru_eviction_order_counterexample :
    MemoryCache.keys (runOps (fun _ => none) ⟨[], 0, 3, 0, 0, 0, 0⟩
        (lruScenarioOps 0 0 "a" "b" "c" "d"
          ⟨200, [], [1], 0⟩ ⟨200, [], [1, 2], 0⟩ ⟨200, [], [3], 0⟩
          ⟨200, [], [4], 0⟩)) = ["d", "c"] ∧
    "a" ∉ MemoryCache.keys (runOps (fun _ => none) ⟨[], 0, 3, 0, 0, 0, 0⟩
        (lruScenarioOps 0 0 "a" "b" "c" "d"
          ⟨200, [], [1], 0⟩ ⟨200, [], [1, 2], 0⟩ ⟨200, [], [3], 0⟩
          ⟨200, [], [4], 0⟩)) ∧
    (runOps (fun _ => none) ⟨[], 0, 3, 0, 0, 0, 0⟩
        (lruScenarioOps 0 0 "a" "b" "c" "d"
          ⟨200, [], [1], 0⟩ ⟨200, [], [1, 2], 0⟩ ⟨200, [], [3], 0⟩
          ⟨200, [], [4], 0⟩)).evictions = 2 := by
  decide

/-- C5 (amended): the scenario insert(A); insert(B); insert(C); lookup(A);
insert(D) on a store with `max_size = size(A)+size(C)+size(D)`, all at one
instant (so nothing expires), behaves as claimed whenever
`0 < size(B) ≤ size(D)` — in particular when all four sizes are equal:
the lookup of A hits (promoting A to most recently used), insert(D) evicts
exactly the tail entry B, and the final state holds exactly D, A, C in
recency order. -/
theorem C5_lru_eviction_order_amended (hostOf : String → Option String)
    (now ttl : Nat) (kA kB kC kD : String) (eA eB eC eD : CacheEntry)
    (hAB : kA ≠ kB) (hAC : kA ≠ kC) (hAD : kA ≠ kD)
    (hBC : kB ≠ kC) (hBD : kB ≠ kD) (hCD : kC ≠ kD)
    (hBpos : 0 < eB.body.length) (hBle : eB.body.length ≤ eD.body.length) :
    MemoryCache.keys (runOps hostOf
        ⟨[], 0, (eA.body.length : Int) + (eC.body.length : Int)
            + (eD.body.length : Int), ttl, 0, 0, 0⟩
        (lruScenarioOps now ttl kA kB kC kD eA eB eC eD)) = [kD, kA, kC] ∧
    kB ∉ MemoryCache.keys (runOps hostOf
        ⟨[], 0, (eA.body.length : Int) + (eC.body.length : Int)
            + (eD.body.length : Int), ttl, 0, 0, 0⟩
        (lruScenarioOps now ttl kA kB kC kD eA eB eC eD)) ∧
    (runOps hostOf
        ⟨[], 0, (eA.body.length : Int) + (eC.body.length : Int)
            + (eD.body.length : Int), ttl, 0, 0, 0⟩
        (lruScenarioOps now ttl kA kB kC kD eA eB eC eD)).evictions = 1 ∧
    (MemoryCache.Get (runOps hostOf
        ⟨[], 0, (eA.body.length : Int) + (eC.body.length : Int)
            + (eD.body.length : Int), ttl, 0, 0, 0⟩
        [Op.setOp now kA eA ttl, Op.setOp now kB eB ttl,
         Op.setOp now kC eC ttl]) now kA).1.isSome = true := by
  have hb : 0 < (eB.body.length : Int) := by exact_mod_cast hBpos
  have hble : (eB.body.length : Int) ≤ (eD.body.length : Int) := by
    exact_mod_cast hBle
  have ha0 : 0 ≤ (eA.body.length : Int) := Int.natCast_nonneg _
  have hc0 : 0 ≤ (eC.body.length : Int) := Int.natCast_nonneg _
  have hd0 : 0 ≤ (eD.body.length : Int) := Int.natCast_nonneg _
  set nA : cacheNode :=
    ⟨kA, { eA with expiry := now + ttl }, (eA.body.length : Int)⟩ with hnA
  set nB : cacheNode :=
    ⟨kB, { eB with expiry := now + ttl }, (eB.body.length : Int)⟩ with hnB
  set nC : cacheNode :=
    ⟨kC, { eC with expiry := now + ttl }, (eC.body.length : Int)⟩ with hnC
  set nD : cacheNode :=
    ⟨kD, { eD with expiry := now + ttl }, (eD.body.length : Int)⟩ with hnD
  have e1 : MemoryCache.SetWithTTL
      ⟨[], 0, (eA.body.length : Int) + (eC.body.length : Int)
          + (eD.body.length : Int), ttl, 0, 0, 0⟩ now kA eA ttl
      = ⟨[nA], 0 + (eA.body.length : Int),
         (eA.body.length : Int) + (eC.body.length : Int)
           + (eD.body.length : Int), ttl, 0, 0, 0⟩ := by
    rw [MemoryCache.SetWithTTL_fresh_fits
      (c := ⟨[], 0, (eA.body.length : Int) + (eC.body.length : Int)
          + (eD.body.length : Int), ttl, 0, 0, 0⟩)
      rfl (by dsimp only; omega) (by dsimp only; omega)]
  have f2 : MemoryCache.findNode [nA] kB = none := by
    show List.find? (fun n => n.key == kB) [nA] = none
    rw [List.find?_cons_of_neg _ (by simp [hnA, hAB])]
    rfl
  have e2 : MemoryCache.SetWithTTL
      ⟨[nA], 0 + (eA.body.length : Int),
       (eA.body.length : Int) + (eC.body.length : Int)
         + (eD.body.length : Int), ttl, 0, 0, 0⟩ now kB eB ttl
      = ⟨[nB, nA], 0 + (eA.body.length : Int) + (eB.body.length : Int),
         (eA.body.length : Int) + (eC.body.length : Int)
           + (eD.body.length : Int), ttl, 0, 0, 0⟩ := by
    rw [MemoryCache.SetWithTTL_fresh_fits
      (c := ⟨[nA], 0 + (eA.body.length : Int),
        (eA.body.length : Int) + (eC.body.length : Int)
          + (eD.body.length : Int), ttl, 0, 0, 0⟩)
      f2 (by dsimp only; omega) (by dsimp only; omega)]
  have f3 : MemoryCache.findNode [nB, nA] kC = none := by
    show List.find? (fun n => n.key == kC) [nB, nA] = none
    rw [List.find?_cons_of_neg _ (by simp [hnB, hBC]),
      List.find?_cons_of_neg _ (by simp [hnA, hAC])]
    rfl
  have e3 : MemoryCache.SetWithTTL
      ⟨[nB, nA], 0 + (eA.body.length : Int) + (eB.body.length : Int),
       (eA.body.length : Int) + (eC.body.length : Int)
         + (eD.body.length : Int), ttl, 0, 0, 0⟩ now kC eC ttl
      = ⟨[nC, nB, nA],
         0 + (eA.body.length : Int) + (eB.body.length : Int)
           + (eC.body.length : Int),
         (eA.body.length : Int) + (eC.body.length : Int)
           + (eD.body.length : Int), ttl, 0, 0, 0⟩ := by
    rw [MemoryCache.SetWithTTL_fresh_fits
      (c := ⟨[nB, nA], 0 + (eA.body.length : Int) + (eB.body.length : Int),
        (eA.body.length : Int) + (eC.body.length : Int)
          + (eD.body.length : Int), ttl, 0, 0, 0⟩)
      f3 (by dsimp only; omega) (by dsimp only; omega)]
  have fg : MemoryCache.findNode [nC, nB, nA] kA = some nA := by
    show List.find? (fun n => n.key == kA) [nC, nB, nA] = some nA
    rw [List.find?_cons_of_neg _ (by simp [hnC, Ne.symm hAC]),
      List.find?_cons_of_neg _ (by simp [hnB, Ne.symm hAB]),
      List.find?_cons_of_pos _ (by simp [hnA])]
  have herase : List.eraseP (fun n => n.key == kA) [nC, nB, nA]
      = [nC, nB] := by
    rw [List.eraseP_cons_of_neg (by simp [hnC, Ne.symm hAC]),
      List.eraseP_cons_of_neg (by simp [hnB, Ne.symm hAB]),
      List.eraseP_cons_of_pos (by simp [hnA])]
  have eg : MemoryCache.Get
      ⟨[nC, nB, nA],
       0 + (eA.body.length : Int) + (eB.body.length : Int)
         + (eC.body.length : Int),
       (eA.body.length : Int) + (eC.body.length : Int)
         + (eD.body.length : Int), ttl, 0, 0, 0⟩ now kA
      = (some nA.entry,
         ⟨[nA, nC, nB],
          0 + (eA.body.length : Int) + (eB.body.length : Int)
            + (eC.body.length : Int),
          (eA.body.length : Int) + (eC.body.length : Int)
            + (eD.body.length : Int), ttl, 0 + 1, 0, 0⟩) := by
    rw [@MemoryCache.Get_fresh
      ⟨[nC, nB, nA],
        0 + (eA.body.length : Int) + (eB.body.length : Int)
          + (eC.body.length : Int),
        (eA.body.length : Int) + (eC.body.length : Int)
          + (eD.body.length : Int), ttl, 0, 0, 0⟩
      now kA nA fg (by rw [hnA]; dsimp only; omega)]
    rw [herase]
  have f5 : MemoryCache.findNode [nA, nC, nB] kD = none := by
    show List.find? (fun n => n.key == kD) [nA, nC, nB] = none
    rw [List.find?_cons_of_neg _ (by simp [hnA, hAD]),
      List.find?_cons_of_neg _ (by simp [hnC, hCD]),
      List.find?_cons_of_neg _ (by simp [hnB, hBD])]
    rfl
  have hel : MemoryCache.evictLRU
      ⟨[nA, nC, nB],
       0 + (eA.body.length : Int) + (eB.body.length : Int)
         + (eC.body.length : Int),
       (eA.body.length : Int) + (eC.body.length : Int)
         + (eD.body.length : Int), ttl, 0 + 1, 0, 0⟩
      = ⟨[nA, nC],
         0 + (eA.body.length : Int) + (eB.body.length : Int)
           + (eC.body.length : Int) - nB.size,
         (eA.body.length : Int) + (eC.body.length : Int)
           + (eD.body.length : Int), ttl, 0 + 1, 0, 0 + 1⟩ := rfl
  have hev : MemoryCache.evictUntilSize
      ⟨[nA, nC, nB],
       0 + (eA.body.length : Int) + (eB.body.length : Int)
         + (eC.body.length : Int),
       (eA.body.length : Int) + (eC.body.length : Int)
         + (eD.body.length : Int), ttl, 0 + 1, 0, 0⟩ (eD.body.length : Int)
      = ⟨[nA, nC],
         0 + (eA.body.length : Int) + (eB.body.length : Int)
           + (eC.body.length : Int) - nB.size,
         (eA.body.length : Int) + (eC.body.length : Int)
           + (eD.body.length : Int), ttl, 0 + 1, 0, 0 + 1⟩ := by
    rw [MemoryCache.evictUntilSize]
    rw [if_neg (show ¬((⟨[nA, nC, nB],
        0 + (eA.body.length : Int) + (eB.body.length : Int)
          + (eC.body.length : Int),
        (eA.body.length : Int) + (eC.body.length : Int)
          + (eD.body.length : Int), ttl, 0 + 1, 0, 0⟩ :
        MemoryCache).maxSize = 0) by dsimp only; omega)]
    show MemoryCache.evictUntilSizeAux (2 + 1) _ _ = _
    rw [MemoryCache.evictUntilSizeAux_step (by dsimp only; omega)
      (by dsimp only; simp)]
    rw [hel]
    exact MemoryCache.evictUntilSizeAux_stop 2 _ _
      (by rw [hnB]; dsimp only; omega)
  have e5 : MemoryCache.SetWithTTL
      ⟨[nA, nC, nB],
       0 + (eA.body.length : Int) + (eB.body.length : Int)
         + (eC.body.length : Int),
       (eA.body.length : Int) + (eC.body.length : Int)
         + (eD.body.length : Int), ttl, 0 + 1, 0, 0⟩ now kD eD ttl
      = ⟨[nD, nA, nC],
         0 + (eA.body.length : Int) + (eB.body.length : Int)
           + (eC.body.length : Int) - nB.size + (eD.body.length : Int),
         (eA.body.length : Int) + (eC.body.length : Int)
           + (eD.body.length : Int), ttl, 0 + 1, 0, 0 + 1⟩ := by
    rw [MemoryCache.SetWithTTL_ok (by dsimp only; omega)]
    rw [MemoryCache.removeElement_not_found
      (c := ⟨[nA, nC, nB],
        0 + (eA.body.length : Int) + (eB.body.length : Int)
          + (eC.body.length : Int),
        (eA.body.length : Int) + (eC.body.length : Int)
          + (eD.body.length : Int), ttl, 0 + 1, 0, 0⟩) (k := kD) f5]
    rw [hev]
  simp only [lruScenarioOps, runOps, List.foldl_cons, List.foldl_nil, applyOp]
  rw [e1, e2, e3, eg]
  dsimp only
  rw [e5]
  refine ⟨?_, ?_, rfl, rfl⟩
  · simp [MemoryCache.keys, hnA, hnC, hnD]
  · simp [MemoryCache.keys, hnA, hnC, hnD, hBD, hBC, Ne.symm hAB]

/-- Closed instance of `C5_lru_eviction_order_amended` with four one-byte
bodies. -/
theorem C5_lru_eviction_order_amended_witness :
    MemoryCache.keys (runOps (fun _ => none)
        ⟨[], 0, ((([7] : List Nat)).length : Int)
            + ((([9] : List Nat)).length : Int)
            + ((([6] : List Nat)).length : Int), 60, 0, 0, 0⟩
        (lruScenarioOps 5 60 "a" "b" "c" "d"
          ⟨200, [], [7], 0⟩ ⟨201, [], [8], 0⟩ ⟨202, [], [9], 0⟩
          ⟨203, [], [6], 0⟩)) = ["d", "a", "c"] ∧
    "b" ∉ MemoryCache.keys (runOps (fun _ => none)
        ⟨[], 0, ((([7] : List Nat)).length : Int)
            + ((([9] : List Nat)).length : Int)
            + ((([6] : List Nat)).length : Int), 60, 0, 0, 0⟩
        (lruScenarioOps 5 60 "a" "b" "c" "d"
          ⟨200, [], [7], 0⟩ ⟨201, [], [8], 0⟩ ⟨202, [], [9], 0⟩
          ⟨203, [], [6], 0⟩)) ∧
    (runOps (fun _ => none)
        ⟨[], 0, ((([7] : List Nat)).length : Int)
            + ((([9] : List Nat)).length : Int)
            + ((([6] : List Nat)).length : Int), 60, 0, 0, 0⟩
        (lruScenarioOps 5 60 "a" "b" "c" "d"
          ⟨200, [], [7], 0⟩ ⟨201, [], [8], 0⟩ ⟨202, [], [9], 0⟩
          ⟨203, [], [6], 0⟩)).evictions = 1 ∧
    (MemoryCache.Get (runOps (fun _ => none)
        ⟨[], 0, ((([7] : List Nat)).length : Int)
            + ((([9] : List Nat)).length : Int)
            + ((([6] : List Nat)).length : Int), 60, 0, 0, 0⟩
        [Op.setOp 5 "a" ⟨200, [], [7], 0⟩ 60,
         Op.setOp 5 "b" ⟨201, [], [8], 0⟩ 60,
         Op.setOp 5 "c" ⟨202, [], [9], 0⟩ 60]) 5 "a").1.isSome = true :=
  C5_lru_eviction_order_amended (fun _ => none) 5 60 "a" "b" "c" "d"
    ⟨200, [], [7], 0⟩ ⟨201, [], [8], 0⟩ ⟨202, [], [9], 0⟩ ⟨203, [], [6], 0⟩
    (by decide) (by decide) (by decide) (by decide) (by decide) (by decide)
    (by decide) (by decide)

/-- The leaf-certificate LRU cache of the proxy: the Go fields `certCache`
(map host to list element) and `certLRUList` are represented, like the
response store, by the host list in recency order (head = most recent).
The TLS certificate payload plays no role in the claims about this store,
so an entry is identified by its host. -/
structure CertCache where
  lru : List String
  evictions : Nat
deriving Repr, DecidableEq

namespace CertCache

/-- `evictOldestCert` (`proxy.go` lines 634 to 648): drop the tail host and
count an eviction; empty cache reports `false` and changes nothing. -/
def evictOldestCert (s : CertCache) : CertCache :=
  match s.lru.getLast? with
  | none => s
  | some _ => { lru := s.lru.dropLast, evictions := s.evictions + 1 }

/-- `getCert` (`proxy.go` lines 650 to 710), single-threaded reading: a hit
moves the host to the front and returns the cached leaf; a miss generates a
certificate (generation is modelled as always succeeding - on failure the
Go code returns before touching the cache), evicts the tail when
`maxEntries > 0 && len(certCache) >= maxEntries`, and links the new host at
the front. -/
def getCert (maxEntries : Nat) (s : CertCache) (host : String) : CertCache :=
  if host ∈ s.lru then
    { s with lru := host :: s.lru.erase host }
  else
    let s1 := if 0 < maxEntries ∧ maxEntries ≤ s.lru.length
      then evictOldestCert s else s
    { s1 with lru := host :: s1.lru }

/-- Run a sequence of `getCert` calls left to right. -/
def runGets (maxEntries : Nat) (s : CertCache) (hosts : List String) :
    CertCache :=
  hosts.foldl (getCert maxEntries) s

theorem getCert_step (maxEntries : Nat) (s : CertCache) (host : String)
    (hnd : s.lru.Nodup) (hlen : 0 < maxEntries → s.lru.length ≤ maxEntries) :
    (getCert maxEntries s host).lru.Nodup ∧
    (0 < maxEntries → (getCert maxEntries s host).lru.length ≤ maxEntries) := by
  unfold getCert
  by_cases hmem : host ∈ s.lru
  · rw [if_pos hmem]
    constructor
    · exact List.nodup_cons.mpr ⟨hnd.not_mem_erase, hnd.erase host⟩
    · intro hpos
      have hl := hlen hpos
      have he : (s.lru.erase host).length = s.lru.length - 1 :=
        List.length_erase_of_mem hmem
      have hp : 0 < s.lru.length := List.length_pos.mpr
        (List.ne_nil_of_mem hmem)
      simp only [List.length_cons, he]
      omega
  · rw [if_neg hmem]
    by_cases hcap : 0 < maxEntries ∧ maxEntries ≤ s.lru.length
    · rw [if_pos hcap]
      have hne : s.lru ≠ [] := by
        intro h0
        rw [h0] at hcap
        simp at hcap
        omega
      have hg : ∃ x, s.lru.getLast? = some x := by
        cases hx : s.lru.getLast? with
        | none => exact absurd (List.getLast?_eq_none_iff.mp hx) hne
        | some x => exact ⟨x, rfl⟩
      obtain ⟨x, hx⟩ := hg
      have hev : (evictOldestCert s).lru = s.lru.dropLast := by
        unfold evictOldestCert
        rw [hx]
      dsimp only
      constructor
      · rw [hev]
        refine List.nodup_cons.mpr ⟨?_, (List.dropLast_sublist s.lru).nodup hnd⟩
        intro hmem2
        exact hmem ((List.dropLast_sublist s.lru).subset hmem2)
      · intro hpos
        have hl := hlen hpos
        rw [hev]
        simp only [List.length_cons, List.length_dropLast]
        have hp : 0 < s.lru.length := by omega
        omega
    · rw [if_neg hcap]
      constructor
      · exact List.nodup_cons.mpr ⟨hmem, hnd⟩
      · intro hpos
        simp only [List.length_cons]
        omega

theorem runGets_invariant (maxEntries : Nat) (hosts : List String) :
    ∀ (s : CertCache), s.lru.Nodup →
      (0 < maxEntries → s.lru.length ≤ maxEntries) →
      (runGets maxEntries s hosts).lru.Nodup ∧
      (0 < maxEntries →
        (runGets maxEntries s hosts).lru.length ≤ maxEntries) := by
  induction hosts with
  | nil => intro s hnd hlen; exact ⟨hnd, hlen⟩
  | cons h t ih =>
    intro s hnd hlen
    have hstep := getCert_step maxEntries s h hnd hlen
    exact ih (getCert maxEntries s h) hstep.1 hstep.2

end CertCache

/-- C9: starting from an empty certificate cache, after every completed
`getCert` sequence the number of cached hosts equals the LRU list length
and stays at or below `max_entries` when that is positive; a hit promotes
the host to most recently used (no eviction); and the concrete sequence
get(a), get(b), get(c), get(a), get(d) with `max_entries = 3` leaves
exactly d, a, c cached (b evicted, one eviction counted). -/
theorem C9_cert_store_lru :
    (∀ (maxEntries : Nat) (hosts : List String),
      (CertCache.runGets maxEntries ⟨[], 0⟩ hosts).lru.dedup.length
        = (CertCache.runGets maxEntries ⟨[], 0⟩ hosts).lru.length ∧
      (0 < maxEntries →
        (CertCache.runGets maxEntries ⟨[], 0⟩ hosts).lru.length
          ≤ maxEntries)) ∧
    (∀ (maxEntries : Nat) (s : CertCache) (host : String), host ∈ s.lru →
      CertCache.getCert maxEntries s host
        = { s with lru := host :: s.lru.erase host }) ∧
    CertCache.runGets 3 ⟨[], 0⟩ ["a", "b", "c", "a", "d"]
      = ⟨["d", "a", "c"], 1⟩ := by
  refine ⟨?_, ?_, by decide⟩
  · intro maxEntries hosts
    have h := CertCache.runGets_invariant maxEntries hosts ⟨[], 0⟩
      (by simp) (fun _ => by simp)
    exact ⟨by rw [List.dedup_eq_self.mpr h.1], h.2⟩
  · intro maxEntries s host hmem
    unfold CertCache.getCert
    rw [if_pos hmem]

/-- Closed instance of `C9_cert_store_lru`: the capacity bound on the
concrete scenario run, and a concrete hit promotion. -/
theorem C9_cert_store_lru_witness :
    (CertCache.runGets 3 ⟨[], 0⟩ ["a", "b", "c", "a", "d"]).lru.length ≤ 3 ∧
    CertCache.getCert 2 ⟨["y", "x"], 0⟩ "x"
      = ⟨"x" :: (["y", "x"].erase "x"), 0⟩ :=
  ⟨(C9_cert_store_lru.1 3 ["a", "b", "c", "a", "d"]).2 (by decide),
   C9_cert_store_lru.2.1 2 ⟨["y", "x"], 0⟩ "x" (by decide)⟩

/-- Whether a character stays unescaped in a query component: Go escapes
every byte except letters, digits and the marks minus, underscore, dot and
tilde, and writes a space as a plus (net/url shouldEscape for query
components).  The embedding works on Unicode scalars; all inputs of
interest are ASCII, where scalar and byte coincide. -/
def queryUnescaped (ch : Char) : Bool :=
  ch.isAlphanum || ch = '-' || ch = '_' || ch = '.' || ch = '~'

/-- Uppercase hexadecimal digit, for percent escapes. -/
def upperHexDigit (n : Nat) : Char :=
  if n < 10 then Char.ofNat (48 + n) else Char.ofNat (55 + n)

/-- Escape one character as `url.QueryEscape` does. -/
def escapeChar (ch : Char) : List Char :=
  if queryUnescaped ch then [ch]
  else if ch = ' ' then ['+']
  else ['%', upperHexDigit (ch.toNat / 16), upperHexDigit (ch.toNat % 16)]

/-- `url.QueryEscape`. -/
def queryEscape (s : String) : String :=
  ⟨(s.data.map escapeChar).flatten⟩

/-- The parts of a parsed `url.URL` that `getCacheKey` reads.  The raw
query is represented by its parsed key-value pairs in order of appearance
(what `url.ParseQuery` yields before grouping them into the `url.Values`
map); a URL without a query has `query = []`. -/
structure URL where
  scheme : String
  host : String
  path : String
  query : List (String × String)
  fragment : String
deriving Repr, DecidableEq

/-- `u.Query()[k]`: the values stored under key `k`, in their original
order of appearance. -/
def queryValues (q : List (String × String)) (k : String) : List String :=
  (q.filter (fun p => p.1 == k)).map Prod.snd

/-- The distinct query keys sorted lexicographically.  `getCacheKey` sorts
the collected keys and `url.Values.Encode` iterates them sorted again, so
only this sorted deduplicated list reaches the output. -/
def sortedQueryKeys (q : List (String × String)) : List String :=
  ((q.map Prod.fst).dedup).mergeSort (fun a b => decide (a ≤ b))

/-- `url.Values.Encode` on the canonicalized values built by
`getCacheKey`: for each key in sorted order and each of its values in
order, emit escape(key)=escape(value), joined with ampersands. -/
def encodeValues (q : List (String × String)) : String :=
  String.intercalate "&"
    ((sortedQueryKeys q).flatMap (fun k =>
      (queryValues q k).map (fun v => queryEscape k ++ "=" ++ queryEscape v)))

/-- `getCacheKey` (`proxy.go` lines 160 to 181): clear the fragment,
re-encode a nonempty query canonically, and print the URL.  `u.String()`
is modelled for the absolute http(s) URLs the proxy handles:
scheme://host + path + optional ?query; the cleared fragment contributes
nothing. -/
def getCacheKey (u : URL) : String :=
  let rawQuery := if u.query = [] then "" else encodeValues u.query
  u.scheme ++ "://" ++ u.host ++ u.path
    ++ (if rawQuery = "" then "" else "?" ++ rawQuery)

theorem filter_key_eq_nil_of_not_mem {q : List (String × String)}
    {k : String} (h : k ∉ q.map Prod.fst) :
    q.filter (fun p => p.1 == k) = [] := by
  rw [List.filter_eq_nil_iff]
  intro p hp hk
  exact h (List.mem_map.mpr ⟨p, hp, by simpa using hk⟩)

theorem mem_map_fst_iff_filter {q : List (String × String)} {k : String} :
    k ∈ q.map Prod.fst ↔ q.filter (fun p => p.1 == k) ≠ [] := by
  constructor
  · intro h hnil
    obtain ⟨p, hp, hk⟩ := List.mem_map.mp h
    have : p ∈ q.filter (fun p => p.1 == k) :=
      List.mem_filter.mpr ⟨hp, by simp [hk]⟩
    rw [hnil] at this
    exact absurd this (List.not_mem_nil p)
  · intro h
    by_contra hk
    exact h (filter_key_eq_nil_of_not_mem hk)

theorem sorted_mergeSort_le (l : List String) :
    List.Sorted (· ≤ ·) (l.mergeSort (fun a b => decide (a ≤ b))) := by
  have h := @List.sorted_mergeSort String (fun a b : String => decide (a ≤ b))
    (fun a b c hab hbc => by
      simp only [decide_eq_true_eq] at *
      exact le_trans hab hbc)
    (fun a b => by
      simp only [Bool.or_eq_true, decide_eq_true_eq]
      exact le_total a b)
    l
  exact h.imp (fun hab => by simpa using hab)

theorem sortedQueryKeys_congr {q1 q2 : List (String × String)}
    (h : ∀ k, q1.filter (fun p => p.1 == k) = q2.filter (fun p => p.1 == k)) :
    sortedQueryKeys q1 = sortedQueryKeys q2 := by
  have hmem : ∀ k, k ∈ (q1.map Prod.fst).dedup
      ↔ k ∈ (q2.map Prod.fst).dedup := by
    intro k
    rw [List.mem_dedup, List.mem_dedup, mem_map_fst_iff_filter,
      mem_map_fst_iff_filter, h k]
  have hperm : (q1.map Prod.fst).dedup.Perm (q2.map Prod.fst).dedup :=
    (List.perm_ext_iff_of_nodup (List.nodup_dedup _)
      (List.nodup_dedup _)).mpr hmem
  have hp : (sortedQueryKeys q1).Perm (sortedQueryKeys q2) := by
    unfold sortedQueryKeys
    exact ((List.mergeSort_perm _ _).trans hperm).trans
      (List.mergeSort_perm _ _).symm
  exact List.eq_of_perm_of_sorted hp (sorted_mergeSort_le _)
    (sorted_mergeSort_le _)

theorem encodeValues_congr {q1 q2 : List (String × String)}
    (h : ∀ k, q1.filter (fun p => p.1 == k) = q2.filter (fun p => p.1 == k)) :
    encodeValues q1 = encodeValues q2 := by
  have hf : (fun k => (queryValues q1 k).map
        (fun v => queryEscape k ++ "=" ++ queryEscape v))
      = (fun k => (queryValues q2 k).map
        (fun v => queryEscape k ++ "=" ++ queryEscape v)) := by
    funext k
    unfold queryValues
    rw [h k]
  unfold encodeValues
  rw [sortedQueryKeys_congr h, hf]

theorem nil_iff_of_filters {q1 q2 : List (String × String)}
    (h : ∀ k, q1.filter (fun p => p.1 == k) = q2.filter (fun p => p.1 == k)) :
    q1 = [] ↔ q2 = [] := by
  constructor
  · intro h1
    cases hq2 : q2 with
    | nil => rfl
    | cons p t =>
      have hp := h p.1
      rw [h1, hq2] at hp
      simp [List.filter_cons] at hp
  · intro h2
    cases hq1 : q1 with
    | nil => rfl
    | cons p t =>
      have hp := h p.1
      rw [h2, hq1] at hp
      simp [List.filter_cons] at hp

/-- C7: the GET fingerprint is invariant under reordering the query pairs
by key (the per-key value sequences determine the key), is independent of
the fragment, and distinguishes a host carrying an explicit port from the
same host without one. -/
theorem C7_fingerprint_canonicalization :
    (∀ (scheme host path f1 f2 : String) (q1 q2 : List (String × String)),
      (∀ k, q1.filter (fun p => p.1 == k) = q2.filter (fun p => p.1 == k)) →
      getCacheKey ⟨scheme, host, path, q1, f1⟩
        = getCacheKey ⟨scheme, host, path, q2, f2⟩) ∧
    (∀ (scheme host path frag : String) (q : List (String × String)),
      getCacheKey ⟨scheme, host, path, q, frag⟩
        = getCacheKey ⟨scheme, host, path, q, ""⟩) ∧
    (∀ (scheme host port path f1 f2 : String)
        (q : List (String × String)),
      path.data.head? = some '/' →
      getCacheKey ⟨scheme, host ++ ":" ++ port, path, q, f1⟩
        ≠ getCacheKey ⟨scheme, host, path, q, f2⟩) := by
  refine ⟨?_, ?_, ?_⟩
  · intro scheme host path f1 f2 q1 q2 h
    simp only [getCacheKey]
    have hq := nil_iff_of_filters h
    by_cases h1 : q1 = []
    · have h2 : q2 = [] := hq.mp h1
      simp [h1, h2]
    · have h2 : ¬q2 = [] := fun hh => h1 (hq.mpr hh)
      simp only [if_neg h1, if_neg h2]
      rw [encodeValues_congr h]
  · intro scheme host path frag q
    rfl
  · intro scheme host port path f1 f2 q hpath heq
    have hps : ∃ ps, path.data = '/' :: ps := by
      cases hd : path.data with
      | nil =>
        rw [hd] at hpath
        simp at hpath
      | cons a t =>
        rw [hd] at hpath
        simp at hpath
        exact ⟨t, by rw [hpath]⟩
    obtain ⟨ps, hps⟩ := hps
    simp only [getCacheKey] at heq
    have hdata := congrArg String.data heq
    have hsep : ("://" : String).data = [':', '/', '/'] := rfl
    have hcolon : ((":") : String).data = [':'] := rfl
    simp only [String.data_append, List.append_assoc, hsep, hcolon,
      List.cons_append, List.nil_append] at hdata
    have h2 := List.append_cancel_left hdata
    simp only [List.cons.injEq, true_and] at h2
    have h3 := List.append_cancel_left h2
    rw [hps] at h3
    simp at h3

/-- Closed instance of `C7_fingerprint_canonicalization` at the spec
examples: swapped query keys agree, a fragment is dropped, an explicit
port changes the fingerprint. -/
theorem C7_fingerprint_canonicalization_witness :
    getCacheKey ⟨"http", "x", "/p", [("b", "2"), ("a", "1")], ""⟩
      = getCacheKey ⟨"http", "x", "/p", [("a", "1"), ("b", "2")], ""⟩ ∧
    getCacheKey ⟨"http", "x", "/p", [], "frag"⟩
      = getCacheKey ⟨"http", "x", "/p", [], ""⟩ ∧
    getCacheKey ⟨"http", "x" ++ ":" ++ "8080", "/p", [], ""⟩
      ≠ getCacheKey ⟨"http", "x", "/p", [], ""⟩ := by
  refine ⟨?_, ?_, ?_⟩
  · refine C7_fingerprint_canonicalization.1 "http" "x" "/p" "" "" _ _ ?_
    intro k
    by_cases hb : ("b" : String) = k <;> by_cases ha : ("a" : String) = k
    · exact absurd (ha.trans hb.symm) (by decide)
    all_goals simp [List.filter_cons, hb, ha]
  · exact C7_fingerprint_canonicalization.2.1 "http" "x" "/p" "frag" []
  · exact C7_fingerprint_canonicalization.2.2 "http" "x" "8080" "/p" "" "" []
      (by decide)

/-- The slice of `config.Config` read by the request pipeline. -/
structure Config where
  cacheableTypes : List String
  ignoreNoCache : Bool
  negativeTTL : Nat
  postCacheEnable : Bool
  postIncludeQueryString : Bool
  maxRequestBodySizeMB : Nat
  maxResponseBodySizeMB : Nat
deriving Repr, DecidableEq

/-- The values stored under a header name in an `http.Header` multimap. -/
def headerValues (h : List (String × String)) (k : String) : List String :=
  (h.filter (fun p => p.1 == k)).map Prod.snd

/-- `Header.Get`: the first value under the name, or the empty string. -/
def headerGet (h : List (String × String)) (k : String) : String :=
  match headerValues h k with
  | [] => ""
  | v :: _ => v

/-- `Header.Set`: replace every value stored under the name by one. -/
def headerSet (h : List (String × String)) (k v : String) :
    List (String × String) :=
  (k, v) :: h.filter (fun p => !(p.1 == k))

/-- `strings.Contains`. -/
def containsSubstr (s sub : String) : Bool :=
  decide (List.IsInfix sub.data s.data)

/-- An inner proxy request. -/
structure Request where
  method : String
  url : URL
  headers : List (String × String)
  body : List Nat
deriving Repr, DecidableEq

/-- The origin reply once its body has been read in full:
`transport.RoundTrip` followed by `io.ReadAll`.  `none` models a failure of
either step; both produce the same client-visible handling (an error
response, no cache write), so they are not distinguished. -/
structure OriginResponse where
  statusCode : Nat
  headers : List (String × String)
  body : List Nat
deriving Repr, DecidableEq

/-- The response written back to the client (status, header map as built
in the response writer, body). -/
structure ClientResponse where
  statusCode : Nat
  headers : List (String × String)
  body : List Nat
deriving Repr, DecidableEq

/-- `shouldCacheRequest` (`proxy.go` lines 207 to 212): only GET. -/
def shouldCacheRequest (r : Request) : Bool :=
  r.method == "GET"

/-- `isErrorStatusCode` (`proxy.go` lines 183 to 186). -/
def isErrorStatusCode (statusCode : Nat) : Bool :=
  400 ≤ statusCode && statusCode ≤ 599

/-- `shouldCacheResponse` (`proxy.go` lines 214 to 243): the content type
must extend one of the configured prefixes; unless `ignore_no_cache` is
set, `Cache-Control` containing no-cache or no-store, or `Pragma:
no-cache`, rejects. -/
def shouldCacheResponse (cfg : Config)
    (respHeaders : List (String × String)) : Bool :=
  let contentType := headerGet respHeaders "Content-Type"
  if !(cfg.cacheableTypes.any (fun t => strStartsWith contentType t)) then
    false
  else if !cfg.ignoreNoCache then
    if containsSubstr (headerGet respHeaders "Cache-Control") "no-cache"
        || containsSubstr (headerGet respHeaders "Cache-Control") "no-store"
      then false
    else if headerGet respHeaders "Pragma" == "no-cache" then false
    else true
  else true

/-- Digest stand-in: SHA-256 of the body is modelled by an injective
byte-to-text encoding.  No settled claim depends on any property of the
digest beyond being a function of the body bytes. -/
def bodyHashHex (body : List Nat) : String :=
  String.intercalate "," (body.map toString)

/-- The raw query re-rendered from the parsed pairs in order, as a raw
query string that parses back to those pairs. -/
def rawQueryString (q : List (String × String)) : String :=
  String.intercalate "&" (q.map (fun p => p.1 ++ "=" ++ p.2))

/-- `getPostCacheKey` (`proxy.go` lines 188 to 205): scheme://host+path,
optionally the raw query when configured, a colon and the body digest. -/
def getPostCacheKey (cfg : Config) (u : URL) (body : List Nat) : String :=
  (u.scheme ++ "://" ++ u.host ++ u.path
    ++ (if cfg.postIncludeQueryString && !u.query.isEmpty
        then "?" ++ rawQueryString u.query else ""))
    ++ ":" ++ bodyHashHex body

/-- Drop the hop-by-hop headers `Proxy-Connection` and
`Proxy-Authorization` before forwarding. -/
def stripProxyHeaders (r : Request) : Request :=
  { r with
    headers := List.filter (fun p => !(p.1 == "Proxy-Authorization"))
      (List.filter (fun p => !(p.1 == "Proxy-Connection")) r.headers) }

/-- The header block `http.Error` produces (plain text, nosniff); the error
text body is abstracted to empty since the transport abstraction does not
carry error strings, and no claim reads it. -/
def httpErrorHeaders : List (String × String) :=
  [("Content-Type", "text/plain; charset=utf-8"),
   ("X-Content-Type-Options", "nosniff")]

/-- Store the origin response under the key with the TTL the status
selects: `negative_ttl` for 4xx and 5xx, the default otherwise
(`proxy.go` lines 332 to 350). -/
def storeResponse (cfg : Config) (now : Nat) (key : String)
    (resp : OriginResponse) (c : MemoryCache) : MemoryCache :=
  if isErrorStatusCode resp.statusCode then
    MemoryCache.SetWithTTL c now key
      ⟨resp.statusCode, resp.headers, resp.body, 0⟩ cfg.negativeTTL
  else
    MemoryCache.Set c now key ⟨resp.statusCode, resp.headers, resp.body, 0⟩

/-- Forward leg of `handleHTTP` (`proxy.go` lines 308 to 377): strip proxy
headers, forward, answer 503 on a transport or body-read failure (nothing
cached), otherwise store the response when the method was keyable and the
policy accepts it, copy the origin headers into the reply and set
`X-Cache: MISS` iff keyable (the copy precedes the Set, which replaces any
copied X-Cache values). -/
def handleHTTPForward (cfg : Config) (now : Nat) (req : Request)
    (transport : Request → Option OriginResponse) (c : MemoryCache)
    (keyable : Bool) (key : String) : ClientResponse × MemoryCache :=
  match transport (stripProxyHeaders req) with
  | none => (⟨503, httpErrorHeaders, []⟩, c)
  | some resp =>
    let c1 := if keyable && shouldCacheResponse cfg resp.headers
      then storeResponse cfg now key resp c else c
    let outHeaders := if keyable then headerSet resp.headers "X-Cache" "MISS"
      else resp.headers
    (⟨resp.statusCode, outHeaders, resp.body⟩, c1)

/-- `handlePostRequest` (`proxy.go` lines 380 to 465): answer 413 when the
request body exceeds the configured limit (`http.MaxBytesReader`);
otherwise key on URL plus body digest, serve a hit with `X-Cache: HIT`
followed by the stored header pairs, forward a miss (503 on failure), cache
the reply unless its body exceeds the response limit or the policy rejects
it, and write the reply with `X-Cache: MISS` set after the header copy.
The generic body-read-error 500 branch has no counterpart here because the
embedding receives the request body as a value. -/
def handlePostRequest (cfg : Config) (now : Nat) (req : Request)
    (transport : Request → Option OriginResponse) (c : MemoryCache) :
    ClientResponse × MemoryCache :=
  if req.body.length > cfg.maxRequestBodySizeMB * 1024 * 1024 then
    (⟨413, httpErrorHeaders, []⟩, c)
  else
    match MemoryCache.Get c now (getPostCacheKey cfg req.url req.body) with
    | (some entry, c1) =>
      (⟨entry.statusCode, headerSet [] "X-Cache" "HIT" ++ entry.headers,
        entry.body⟩, c1)
    | (none, c1) =>
      match transport (stripProxyHeaders req) with
      | none => (⟨503, httpErrorHeaders, []⟩, c1)
      | some resp =>
        let c2 :=
          if resp.body.length > cfg.maxResponseBodySizeMB * 1024 * 1024
            then c1
          else if shouldCacheResponse cfg resp.headers then
            storeResponse cfg now (getPostCacheKey cfg req.url req.body)
              resp c1
          else c1
        (⟨resp.statusCode, headerSet resp.headers "X-Cache" "MISS",
          resp.body⟩, c2)

/-- `handleHTTP` (`proxy.go` lines 254 to 378): POST with POST caching
enabled goes to `handlePostRequest`; a GET is looked up under the
canonical key and a hit is served with `X-Cache: HIT` set before the
stored header pairs are copied in; everything else forwards without a
lookup, and `X-Cache: MISS` is set iff the method was keyable. -/
def handleHTTP (cfg : Config) (now : Nat) (req : Request)
    (transport : Request → Option OriginResponse) (c : MemoryCache) :
    ClientResponse × MemoryCache :=
  if req.method == "POST" && cfg.postCacheEnable then
    handlePostRequest cfg now req transport c
  else if shouldCacheRequest req then
    match MemoryCache.Get c now (getCacheKey req.url) with
    | (some entry, c1) =>
      (⟨entry.statusCode, headerSet [] "X-Cache" "HIT" ++ entry.headers,
        entry.body⟩, c1)
    | (none, c1) =>
      handleHTTPForward cfg now req transport c1 true (getCacheKey req.url)
  else
    handleHTTPForward cfg now req transport c false ""

/-- Overwrite the headers of the entry stored under `k`.  This makes the
Go map aliasing explicit: `http.Header` is a reference value, and the
`CacheEntry` stored by `SetWithTTL` shares its header map with the
`http.Response` it was built from, so a later `Header.Set` on that
response rewrites the stored headers in place. -/
def mutateStoredHeaders (c : MemoryCache) (k : String)
    (hs : List (String × String)) : MemoryCache :=
  { c with lru := c.lru.map (fun n =>
      if n.key == k then { n with entry := { n.entry with headers := hs } }
      else n) }

/-- Forward leg of `handleHTTPS` (`proxy.go` lines 553 to 631): forward
the decrypted request, synthesize 502 Bad Gateway on transport failure,
store a keyable cacheable response, then run
`resp.Header.Set("X-Cache", "MISS")` when keyable.  `resp.Header` is one
Go map shared by the stored `CacheEntry` and by the response serialized to
the client, so when the response was just cached the Set also rewrites the
stored headers (`mutateStoredHeaders`). -/
def handleHTTPSForward (cfg : Config) (now : Nat) (req : Request)
    (transport : Request → Option OriginResponse) (c : MemoryCache)
    (keyable : Bool) (key : String) : ClientResponse × MemoryCache :=
  match transport req with
  | none =>
    (⟨502, [], ("Bad Gateway".data.map Char.toNat)⟩, c)
  | some resp =>
    let cached := keyable && shouldCacheResponse cfg resp.headers
    let c1 := if cached then storeResponse cfg now key resp c else c
    let outHeaders := if keyable then headerSet resp.headers "X-Cache" "MISS"
      else resp.headers
    let c2 := if cached then mutateStoredHeaders c1 key outHeaders else c1
    (⟨resp.statusCode, outHeaders, resp.body⟩, c2)

/-- `handleHTTPS` (`proxy.go` lines 467 to 632) after the connection
plumbing: the hijack, the tunnel acknowledgment, the leaf certificate and
the TLS handshake have no cache effect and are taken as succeeded, and one
decrypted request has been read.  Its URL is rewritten to scheme https and
the CONNECT host, then the same lookup/forward pipeline runs.  On a hit
the code calls `entry.Headers.Set("X-Cache", "HIT")` on the stored header
map itself and serializes the response around that same map, so the
stored entry is mutated in place. -/
def handleHTTPS (cfg : Config) (now : Nat) (host : String) (req0 : Request)
    (transport : Request → Option OriginResponse) (c : MemoryCache) :
    ClientResponse × MemoryCache :=
  let req := { req0 with
    url := { req0.url with scheme := "https", host := host } }
  if shouldCacheRequest req then
    match MemoryCache.Get c now (getCacheKey req.url) with
    | (some entry, c1) =>
      let newHeaders := headerSet entry.headers "X-Cache" "HIT"
      (⟨entry.statusCode, newHeaders, entry.body⟩,
       mutateStoredHeaders c1 (getCacheKey req.url) newHeaders)
    | (none, c1) =>
      handleHTTPSForward cfg now req transport c1 true (getCacheKey req.url)
  else
    handleHTTPSForward cfg now req transport c false ""

/-- C2 fails on the code, evaluated at a concrete failing input: one HTTPS
GET through the MISS path inserts an entry whose headers were exactly
`Content-Type: text/html` (no X-Cache value, first conjunct), yet the
later `resp.Header.Set("X-Cache", "MISS")` reaches the stored map, so the
stored entry and a later lookup now carry `X-Cache: MISS` (second and
third conjuncts); serving the subsequent cache hit rewrites the stored
value to `HIT` (fourth conjunct).  Both paths mutate the stored
`CachedResponse` headers in place instead of leaving them as inserted. -/
theorem C2_stored_headers_mutated :
    (let cfg : Config := ⟨["text/html"], false, 60, false, false, 50, 50⟩
     let req : Request := ⟨"GET", ⟨"http", "h", "/", [], ""⟩, [], []⟩
     let tr : Request → Option OriginResponse :=
       fun _ => some ⟨200, [("Content-Type", "text/html")], [88]⟩
     let key := getCacheKey ⟨"https", "example.com:443", "/", [], ""⟩
     let c1 := (handleHTTPS cfg 0 "example.com:443" req tr
       (NewMemoryCache 300 1)).2
     let c2 := (handleHTTPS cfg 0 "example.com:443" req tr c1).2
     headerValues [("Content-Type", "text/html")] "X-Cache" = [] ∧
     (MemoryCache.findNode c1.lru key).map
       (fun n => headerValues n.entry.headers "X-Cache") = some ["MISS"] ∧
     ((MemoryCache.Get c1 0 key).1).map
       (fun e => headerValues e.headers "X-Cache") = some ["MISS"] ∧
     (MemoryCache.findNode c2.lru key).map
       (fun n => headerValues n.entry.headers "X-Cache") = some ["HIT"]) := by
  decide

theorem headerValues_append (h1 h2 : List (String × String)) (k : String) :
    headerValues (h1 ++ h2) k = headerValues h1 k ++ headerValues h2 k := by
  unfold headerValues
  rw [List.filter_append, List.map_append]

theorem headerValues_headerSet_same (h : List (String × String))
    (k v : String) : headerValues (headerSet h k v) k = [v] := by
  unfold headerValues headerSet
  rw [List.filter_cons]
  have hnil : (h.filter (fun p => !(p.1 == k))).filter
      (fun p => p.1 == k) = [] := by
    rw [List.filter_eq_nil_iff]
    intro a ha
    have hmem := (List.mem_filter.mp ha).2
    simp at hmem
    simp [hmem]
  rw [hnil]
  simp

theorem Get_some_mem {c : MemoryCache} {now : Nat} {k : String}
    {e : CacheEntry} (h : (MemoryCache.Get c now k).1 = some e) :
    ∃ n ∈ c.lru, n.entry = e := by
  cases hf : MemoryCache.findNode c.lru k with
  | none =>
    rw [MemoryCache.Get_none hf] at h
    simp at h
  | some node =>
    by_cases hx : node.entry.expiry < now
    · rw [MemoryCache.Get_expired hf hx] at h
      simp at h
    · rw [MemoryCache.Get_fresh hf hx] at h
      simp only [Option.some.injEq] at h
      exact ⟨node, List.mem_of_find?_eq_some hf, h⟩

/-- Keyable by method: GET, or POST with POST caching enabled
(spec section 4.C). -/
def keyableRequest (cfg : Config) (r : Request) : Bool :=
  r.method == "GET" || (r.method == "POST" && cfg.postCacheEnable)

/-- Whether `handleHTTP` serves this request from the store: the lookup
under the method-appropriate key finds a live entry, a POST having first
passed the request-body gate. -/
def servedFromStore (cfg : Config) (now : Nat) (req : Request)
    (c : MemoryCache) : Bool :=
  if req.method == "POST" && cfg.postCacheEnable then
    !(req.body.length > cfg.maxRequestBodySizeMB * 1024 * 1024) &&
      (MemoryCache.Get c now (getPostCacheKey cfg req.url req.body)).1.isSome
  else
    shouldCacheRequest req &&
      (MemoryCache.Get c now (getCacheKey req.url)).1.isSome

/-- Whether the request passes through to the origin with the reply read
in full: not served from the store, past the POST body gate, and the
forward leg succeeds. -/
def passedThrough (cfg : Config) (now : Nat) (req : Request)
    (transport : Request → Option OriginResponse) (c : MemoryCache) : Bool :=
  !servedFromStore cfg now req c &&
  (if req.method == "POST" && cfg.postCacheEnable then
      !(req.body.length > cfg.maxRequestBodySizeMB * 1024 * 1024)
    else true) &&
  (transport (stripProxyHeaders req)).isSome

/-- C8 (amended): provided neither the origin response nor any stored
entry itself carries an X-Cache header, the plain-HTTP pipeline reply
carries exactly `X-Cache: HIT` when served from the store, exactly
`X-Cache: MISS` when the keyable request passed through to the origin, and
no X-Cache header otherwise (non-keyable methods, the POST 413 gate,
transport failures). -/
theorem C8_xcache_header_amended (cfg : Config) (now : Nat) (req : Request)
    (transport : Request → Option OriginResponse) (c : MemoryCache)
    (hOrigin : ∀ r resp, transport r = some resp →
      headerValues resp.headers "X-Cache" = [])
    (hStore : ∀ n ∈ c.lru, headerValues n.entry.headers "X-Cache" = []) :
    headerValues (handleHTTP cfg now req transport c).1.headers "X-Cache"
      = (if servedFromStore cfg now req c then ["HIT"]
         else if keyableRequest cfg req
             && passedThrough cfg now req transport c then ["MISS"]
         else []) := by
  have herr : headerValues httpErrorHeaders "X-Cache" = [] := by decide
  have hhit : ∀ (entry : CacheEntry),
      headerValues entry.headers "X-Cache" = [] →
      headerValues (headerSet [] "X-Cache" "HIT" ++ entry.headers) "X-Cache"
        = ["HIT"] := by
    intro entry hent
    rw [headerValues_append, headerValues_headerSet_same, hent]
    simp
  by_cases hpost : (req.method == "POST" && cfg.postCacheEnable) = true
  · rcases hget : MemoryCache.Get c now (getPostCacheKey cfg req.url req.body)
      with ⟨o, c1⟩
    by_cases hbig : req.body.length > cfg.maxRequestBodySizeMB * 1024 * 1024
    · simp [handleHTTP, handlePostRequest, servedFromStore, passedThrough,
        keyableRequest, hpost, hbig, herr]
    · cases o with
      | some entry =>
        have hent : headerValues entry.headers "X-Cache" = [] := by
          obtain ⟨n, hn, hne⟩ := Get_some_mem
            (show (MemoryCache.Get c now
              (getPostCacheKey cfg req.url req.body)).1 = some entry by
              rw [hget])
          rw [← hne]
          exact hStore n hn
        simp [handleHTTP, handlePostRequest, servedFromStore, passedThrough,
          keyableRequest, hpost, hbig, hget, hhit entry hent]
      | none =>
        cases htr : transport (stripProxyHeaders req) with
        | none =>
          simp [handleHTTP, handlePostRequest, servedFromStore, passedThrough,
            keyableRequest, hpost, hbig, hget, htr, herr]
        | some resp =>
          simp [handleHTTP, handlePostRequest, servedFromStore, passedThrough,
            keyableRequest, hpost, hbig, hget, htr,
            headerValues_headerSet_same]
  · by_cases hgetm : shouldCacheRequest req = true
    · have hm : req.method = "GET" := by simpa [shouldCacheRequest] using hgetm
      rcases hget : MemoryCache.Get c now (getCacheKey req.url) with ⟨o, c1⟩
      cases o with
      | some entry =>
        have hent : headerValues entry.headers "X-Cache" = [] := by
          obtain ⟨n, hn, hne⟩ := Get_some_mem
            (show (MemoryCache.Get c now (getCacheKey req.url)).1
              = some entry by rw [hget])
          rw [← hne]
          exact hStore n hn
        simp [handleHTTP, servedFromStore, passedThrough, keyableRequest,
          hpost, hgetm, hm, hget, hhit entry hent]
      | none =>
        cases htr : transport (stripProxyHeaders req) with
        | none =>
          simp [handleHTTP, handleHTTPForward, servedFromStore, passedThrough,
            keyableRequest, hpost, hgetm, hm, hget, htr, herr]
        | some resp =>
          simp [handleHTTP, handleHTTPForward, servedFromStore, passedThrough,
            keyableRequest, hpost, hgetm, hm, hget, htr,
            headerValues_headerSet_same, shouldCacheRequest]
    · have hm : ¬req.method = "GET" := by
        simpa [shouldCacheRequest] using hgetm
      cases htr : transport (stripProxyHeaders req) with
      | none =>
        simp [handleHTTP, handleHTTPForward, servedFromStore, passedThrough,
          keyableRequest, hpost, hgetm, hm, htr, herr, shouldCacheRequest]
      | some resp =>
        have hor := hOrigin _ resp htr
        simp [handleHTTP, handleHTTPForward, servedFromStore, passedThrough,
          keyableRequest, hpost, hgetm, hm, htr, hor, shouldCacheRequest]

/-- C8 as stated fails (closed counterexample): a PUT request is neither
served from the store nor keyable, but the origin header block is copied
verbatim into the reply, so an origin that itself sends `X-Cache: HIT`
produces a proxy reply carrying `X-Cache: HIT` although it is no cache
hit; the claim requires no X-Cache header here. -/
theorem C8_xcache_header_counterexample :
    (let cfg : Config := ⟨["text/html"], false, 60, false, false, 50, 50⟩
     let req : Request := ⟨"PUT", ⟨"http", "x", "/p", [], ""⟩, [], []⟩
     let tr : Request → Option OriginResponse :=
       fun _ => some ⟨200, [("X-Cache", "HIT")], []⟩
     keyableRequest cfg req = false ∧
     servedFromStore cfg 0 req (NewMemoryCache 60 0) = false ∧
     headerValues (handleHTTP cfg 0 req tr
       (NewMemoryCache 60 0)).1.headers "X-Cache" = ["HIT"]) := by
  decide

/-- Closed instance of `C8_xcache_header_amended`: a first GET through an
empty store against a benign origin. -/
theorem C8_xcache_header_amended_witness :
    headerValues (handleHTTP ⟨["text/html"], false, 60, false, false, 50, 50⟩
        0 ⟨"GET", ⟨"http", "x", "/p", [], ""⟩, [], []⟩
        (fun _ => some ⟨200, [("Content-Type", "text/html")], [88]⟩)
        (NewMemoryCache 60 1)).1.headers "X-Cache"
      = (if servedFromStore ⟨["text/html"], false, 60, false, false, 50, 50⟩
            0 ⟨"GET", ⟨"http", "x", "/p", [], ""⟩, [], []⟩
            (NewMemoryCache 60 1) then ["HIT"]
         else if keyableRequest
               ⟨["text/html"], false, 60, false, false, 50, 50⟩
               ⟨"GET", ⟨"http", "x", "/p", [], ""⟩, [], []⟩
             && passedThrough ⟨["text/html"], false, 60, false, false, 50, 50⟩
               0 ⟨"GET", ⟨"http", "x", "/p", [], ""⟩, [], []⟩
               (fun _ => some ⟨200, [("Content-Type", "text/html")], [88]⟩)
               (NewMemoryCache 60 1) then ["MISS"]
         else []) :=
  C8_xcache_header_amended ⟨["text/html"], false, 60, false, false, 50, 50⟩
    0 ⟨"GET", ⟨"http", "x", "/p", [], ""⟩, [], []⟩
    (fun _ => some ⟨200, [("Content-Type", "text/html")], [88]⟩)
    (NewMemoryCache 60 1)
    (by
      intro r resp h
      injection h with hh
      rw [← hh]
      decide)
    (by
      intro n hn
      simp [NewMemoryCache] at hn)

namespace MemoryCache

/-- `SaveToFile` (`cache.go` lines 206 to 235): gob-encode `c.items` to a
temporary file, then rename into place.  The payload is kept abstract as
the stored key-to-node view, taking the reading most favorable to the
claim, in which the map contents round-trip intact.  (The Go code in fact
encodes `map[string]*list.Element`, whose `cacheNode` payload has no
exported fields, so the encoder errors at run time and the file is never
written; the plan document Task 13 and the persistence tests expect a
`map[string]CacheEntry` payload instead.) -/
def SaveToFile (c : MemoryCache) : List cacheNode :=
  c.lru

/-- `LoadFromFile` (`cache.go` lines 237 to 250): the entire method body
is `decoder.Decode(&c.items)` - the decoded map replaces the entries while
`currentSize`, the LRU bookkeeping and the counters keep their previous
values; no entry is dropped by expiry or size and nothing is recomputed. -/
def LoadFromFile (c : MemoryCache) (file : List cacheNode) : MemoryCache :=
  { c with lru := file }

end MemoryCache

/-- C1 fails on the code, evaluated at a failing input: a store holding
entry k1 (five-byte body, expiry 10) and k2 (two-byte body, expiry 100) is
saved and the file loaded into a fresh store; at instant 20 the claim
requires the expired k1 to be gone and `current_size` to equal the summed
body sizes of what remains, but after `LoadFromFile` the expired entry is
still present and `current_size` is still 0 (nothing was recomputed). -/
theorem C1_load_skips_filtering_and_recompute :
    (let cSrc := MemoryCache.SetWithTTL
       (MemoryCache.SetWithTTL (NewMemoryCache 0 1) 0 "k1"
         ⟨200, [], [1, 2, 3, 4, 5], 0⟩ 10)
       0 "k2" ⟨200, [], [9, 9], 0⟩ 100
     let c1 := MemoryCache.LoadFromFile (NewMemoryCache 0 1)
       (MemoryCache.SaveToFile cSrc)
     (c1.lru.any (fun n => n.entry.expiry ≤ 20)) = true ∧
     (MemoryCache.findNode c1.lru "k1").isSome = true ∧
     c1.currentSize = 0 ∧
     c1.currentSize
       ≠ (c1.lru.map (fun n => (n.entry.body.length : Int))).sum) := by
  decide

end GoCache
